import Mathlib

/-!
Shallow embedding of `dump_eps.py` (UPenn-SUSY/root2html).

The program walks a ROOT file's directory tree, filters TCanvas objects by a
regular-expression pattern, and renders each accepted canvas to an `.eps`
file.  Strings are modelled as `List Char` (`Str`).  External collaborators
are modelled from their documented semantics:

* ROOT containers (`TFile`/`TDirectory`/`TCanvas`): a `TDirectory` holds an
  ordered list of keys (name/object pairs); `TDirectory.Get(name)` returns
  the first object stored under `name` (`getKey`).  A directory's
  `GetPath()` is `<file>:/<path-inside-file>`; we carry the two components
  (`filePart`, `dirPart`) separately, so the program's
  `dirpath.split(':/')[1]` is modelled by reading `dirPart` directly (ROOT
  names are assumed not to contain the `:/` marker).
* Python `re.match(pattern, s)`: succeeds iff some prefix of `s` is in the
  pattern's language (anchored at the start only); patterns are modelled by
  Mathlib's `RegularExpression Char` together with the raw pattern string
  (the code tests the raw string for emptiness before matching).  An
  invalid (unparsable) pattern is modelled by `none`; evaluating it raises
  `re.error` (`PyError.reError`).
* `os.path.join`, `os.path.split`, `os.makedirs`, `os.path.isdir`: posix
  path algebra over a file system modelled as the list of existing
  directories.
* Python float division raises `ZeroDivisionError` when the divisor is
  exactly zero; exact arithmetic is modelled with `ℚ`.
-/

abbrev Str := List Char

/-- Lexicographic comparison on `Str`, the order used by Python's
`list.sort` on strings (models lines 182-183 of `dump_eps.py`). -/
def strLe : Str → Str → Bool
  | [], _ => true
  | _ :: _, [] => false
  | a :: as, b :: bs => if a < b then true else if b < a then false else strLe as bs

/-- Insert into a sorted list (helper for `sortStr`). -/
def insStr (x : Str) : List Str → List Str
  | [] => [x]
  | y :: ys => if strLe x y then x :: y :: ys else y :: insStr x ys

/-- Insertion sort by `strLe`; models Python's in-place `list.sort()`
(the order produced is the same: both sort lexicographically, and under
antisymmetry the sorted permutation is unique). -/
def sortStr : List Str → List Str
  | [] => []
  | x :: xs => insStr x (sortStr xs)

/-- Model of `os.path.join(a, b)` for POSIX paths (two arguments). -/
def pathJoin (a b : Str) : Str :=
  if b.head? = some '/' then b
  else if a = [] ∨ a.getLast? = some '/' then a ++ b
  else a ++ '/' :: b

/-- ROOT's path for the child directory `n` of the directory whose
in-file path is `dp` (the root of the file has in-file path `[]`). -/
def rootChildPath (dp n : Str) : Str :=
  if dp = [] then n else dp ++ '/' :: n

/-- Model of Python's `path.count('/')` (line 202). -/
def countSlash (p : Str) : Nat := p.count '/'

/-- Split a path at its last `'/'`, keeping the separator on the head
side (raw phase of `os.path.split`). -/
def splitRaw : Str → Str × Str
  | [] => ([], [])
  | c :: cs =>
    if '/' ∈ cs then (c :: (splitRaw cs).1, (splitRaw cs).2)
    else if c = '/' then ([c], cs) else ([], c :: cs)

/-- Strip trailing slashes. -/
def rstripSlash (h : Str) : Str := (h.reverse.dropWhile (fun c => c = '/')).reverse

/-- Model of `os.path.split` (posixpath): split at the last `'/'`; the
head is stripped of trailing slashes unless it consists only of slashes. -/
def splitPath (p : Str) : Str × Str :=
  let r := splitRaw p
  if r.1.any (fun c => c ≠ '/') then (rstripSlash r.1, r.2) else r

/-- Model of `os.path.split(path)[0]` = `os.path.dirname` (line 203). -/
def dirnameOf (p : Str) : Str := (splitPath p).1

/-- The objects stored in a ROOT file, as the program distinguishes them:
directories (with their ordered key list), canvases, and everything else. -/
inductive RObj : Type where
  | tdir (keys : List (Str × RObj)) : RObj
  | tcanvas : RObj
  | otherObj : RObj

instance : Inhabited RObj := ⟨RObj.otherObj⟩

/-- Model of `TDirectory.Get(name)`: the first object stored under the
given key name, if any. -/
def getKey : List (Str × RObj) → Str → Option RObj
  | [], _ => none
  | (k, o) :: rest, n => if k = n then some o else getKey rest n

/-- Does `Get(n)` yield a `TDirectory`?  (the `isinstance(d, ROOT.TDirectory)`
test on line 177). -/
def isDirKey (keys : List (Str × RObj)) (n : Str) : Bool :=
  match getKey keys n with
  | some (RObj.tdir _) => true
  | _ => false

/-- Does `Get(n)` yield a `TCanvas`?  (the `isinstance(obj, ROOT.TCanvas)`
test on line 130). -/
def isCanvasKey (keys : List (Str × RObj)) (n : Str) : Bool :=
  match getKey keys n with
  | some RObj.tcanvas => true
  | _ => false

/-- The sorted list of child-directory key names of a directory
(lines 170-182). -/
def dnsOf (keys : List (Str × RObj)) : List Str :=
  sortStr ((keys.map Prod.fst).filter (fun n => isDirKey keys n))

/-- The sorted list of non-directory key names of a directory
(lines 170-183). -/
def fnsOf (keys : List (Str × RObj)) : List Str :=
  sortStr ((keys.map Prod.fst).filter (fun n => !isDirKey keys n))

/-- One visitation record yielded by `walk` (lines 159-192): the
directory's path (carried as the `file:` part and the in-file part of
`GetPath()`), the sorted child-directory names, the sorted object names,
and the directory handle itself (its key list). -/
structure WRec where
  filePart : Str
  dirPart : Str
  dirnames : List Str
  filenames : List Str
  tdirKeys : List (Str × RObj)

mutual

/-- Model of `walk(top, topdown)` (lines 159-192) run to completion: the
list of yielded 4-tuples, for the directory with key list `keys` whose
`GetPath()` is `fp ++ ":/" ++ dp`. -/
def walkDir (td : Bool) (fp dp : Str) (keys : List (Str × RObj)) : List WRec :=
  (if td then [WRec.mk fp dp (dnsOf keys) (fnsOf keys) keys] else []) ++
    walkChildren td fp dp keys (dnsOf keys) ++
      (if td then [] else [WRec.mk fp dp (dnsOf keys) (fnsOf keys) keys])
termination_by (sizeOf keys + 1, 0)
decreasing_by
  apply Prod.Lex.left
  omega

/-- The recursive part of `walk`: visit, in order, each child directory
named in `dns` (lines 187-190), looking each name up with `Get`. -/
def walkChildren (td : Bool) (fp dp : Str) (keys : List (Str × RObj)) :
    List Str → List WRec
  | [] => []
  | dn :: rest =>
    (match h : getKey keys dn with
     | some (RObj.tdir ks) => walkDir td fp (rootChildPath dp dn) ks
     | _ => []) ++ walkChildren td fp dp keys rest
termination_by l => (sizeOf keys, l.length + 1)
decreasing_by
  · apply Prod.Lex.left
    have hlt : ∀ (l : List (Str × RObj)) (n : Str) (o : RObj),
        getKey l n = some o → sizeOf o < sizeOf l := by
      intro l
      induction l with
      | nil => intro n o h2; simp [getKey] at h2
      | cons e rest ih =>
        intro n o h2
        obtain ⟨k, v⟩ := e
        simp only [getKey] at h2
        split at h2
        · cases h2; simp; omega
        · have := ih _ _ h2; simp; omega
    have := hlt _ _ _ h
    simp at this ⊢
    omega
  · apply Prod.Lex.right
    simp

end

/-- The walk of an arbitrary object: directories walk their key lists,
leaves yield nothing (the program only ever walks directories; `walk`
asserts `isinstance(top, ROOT.TDirectory)` on line 169). -/
def walkObj (td : Bool) (fp dp : Str) : RObj → List WRec
  | RObj.tdir ks => walkDir td fp dp ks
  | _ => []

/-- The walk of the single child directory named `dn`, as `walk` resolves
it with `Get` (lines 187-189); empty if `dn` does not resolve to a
directory. -/
def childWalk (td : Bool) (fp dp : Str) (keys : List (Str × RObj)) (dn : Str) :
    List WRec :=
  match getKey keys dn with
  | some (RObj.tdir ks) => walkDir td fp (rootChildPath dp dn) ks
  | _ => []

/-- The observable part of a visitation record: everything except the
directory handle. -/
def projWRec (r : WRec) : Str × Str × List Str × List Str :=
  (r.filePart, r.dirPart, r.dirnames, r.filenames)

/-- Python-level errors that the modelled fragment can raise. -/
inductive PyError : Type where
  | reError : PyError
  | fileExists : PyError
deriving DecidableEq

/-- Model of Python's `re.match(pattern, s)` viewed as a Boolean test:
true iff some prefix of `s` (anchored at the start, not necessarily the
whole string) belongs to the pattern's language. -/
def reMatchPy (r : RegularExpression Char) (s : Str) : Bool :=
  s.inits.any (fun p => r.rmatch p)

/-- Model of the filter step `if pattern and not re.match(pattern,
root_key_path): continue` (line 133): `praw` is the raw pattern string
and `pre` its parse (`none` for a syntactically invalid pattern, whose
evaluation raises `re.error`).  Returns whether the object is accepted. -/
def filterEval (praw : Str) (pre : Option (RegularExpression Char)) (s : Str) :
    Except PyError Bool :=
  if praw = [] then Except.ok true
  else
    match pre with
    | none => Except.error PyError.reError
    | some r => Except.ok (reMatchPy r s)

/-- Run an effectful step over a list, concatenating the outputs and
propagating the first raised error (the exception semantics of the
`for` loops in `write_root_file`). -/
def collectE {α β : Type} : List α → (α → Except PyError (List β)) → Except PyError (List β)
  | [], _ => Except.ok []
  | a :: as, f =>
    match f a with
    | Except.error e => Except.error e
    | Except.ok bs =>
      match collectE as f with
      | Except.error e => Except.error e
      | Except.ok rest => Except.ok (bs ++ rest)

/-- The body of the inner loop of `write_root_file` (lines 128-138) for
one key name: resolve it with `Get`; if it is a `TCanvas`, build its
in-file path, apply the filter, and on acceptance dispatch a render at
the derived output base path (returned as a singleton). -/
def dispatchKey (dirname dp : Str) (keys : List (Str × RObj)) (praw : Str)
    (pre : Option (RegularExpression Char)) (key : Str) : Except PyError (List Str) :=
  match getKey keys key with
  | some RObj.tcanvas =>
    match filterEval praw pre (pathJoin dp key) with
    | Except.error e => Except.error e
    | Except.ok true => Except.ok [pathJoin dirname (pathJoin dp key)]
    | Except.ok false => Except.ok []
  | _ => Except.ok []

/-- Model of `HighSlideRootFileIndex.write_root_file(path, pattern)`
(lines 124-140): walk the file `fname` (key list `fileKeys`), dispatch a
render for every accepted canvas, and return the list of output base
paths passed to `write_canvas` together with `n_plots` (each dispatch
increments the counter by one, so `n_plots` is the list's length). -/
def write_root_file (dirname fname : Str) (fileKeys : List (Str × RObj))
    (praw : Str) (pre : Option (RegularExpression Char)) :
    Except PyError (List Str × Nat) :=
  match collectE (walkDir true fname [] fileKeys)
      (fun r => collectE r.filenames (dispatchKey dirname r.dirPart r.tdirKeys praw pre)) with
  | Except.error e => Except.error e
  | Except.ok out => Except.ok (out, out.length)

/-- Pure value of `dispatchKey` when the pattern parses (no error can be
raised). -/
def dispatchPure (dirname dp : Str) (keys : List (Str × RObj)) (praw : Str)
    (pre : RegularExpression Char) (key : Str) : List Str :=
  match getKey keys key with
  | some RObj.tcanvas =>
    if praw = [] ∨ reMatchPy pre (pathJoin dp key) = true then
      [pathJoin dirname (pathJoin dp key)]
    else []
  | _ => []

/-- The output base paths `write_root_file` dispatches when the pattern
parses: the pure value of the effectful traversal. -/
def wrfOut (dirname fname : Str) (keys : List (Str × RObj)) (praw : Str)
    (pre : RegularExpression Char) : List Str :=
  (walkDir true fname [] keys).flatMap
    (fun r => r.filenames.flatMap (dispatchPure dirname r.dirPart r.tdirKeys praw pre))

/-- Does `p` start with the literal string `q`? -/
def startsWithStr : Str → Str → Bool
  | [], _ => true
  | _ :: _, [] => false
  | p :: ps, c :: cs => p = c && startsWithStr ps cs

/-- Can the tail of the regex `(\.canv)?(\.root)(\.\d*)?` start matching
at this position?  (the optional groups are tried greedily, but overall
success at a position only requires `.canv.root` or `.root` here). -/
def hasRootHere (s : Str) : Bool :=
  startsWithStr ".canv.root".toList s || startsWithStr ".root".toList s

/-- The backtracking loop of `re.match('(\S*?)(\.canv)?(\.root)(\.\d*)?',
path)`: the lazy group `(\S*?)` grows one non-whitespace character at a
time until the rest of the regex can match; `acc` holds the reversed
characters consumed so far (= group 1). -/
def stripAux : Str → Str → Option Str
  | acc, [] => if hasRootHere [] then some acc.reverse else none
  | acc, c :: cs =>
    if hasRootHere (c :: cs) then some acc.reverse
    else if c.isWhitespace then none else stripAux (c :: acc) cs

/-- Model of `strip_root_ext(path)` (lines 195-198): `some` of the
regex's group 1 when the match succeeds, `none` when the `assert reo`
fails. -/
def strip_root_ext (path : Str) : Option Str := stripAux [] path

/-- Is `t` empty or a match of `\.\d*`?  (spec-side helper). -/
def tailNumOk (t : Str) : Bool :=
  match t with
  | [] => true
  | '.' :: ds => ds.all Char.isDigit
  | _ => false

/-- Modelled from the spec: does `s`, taken whole, match the recognized
suffix pattern `(\.canv)?(\.root)(\.\d*)?`? -/
def suffixFullMatch (s : Str) : Bool :=
  (startsWithStr ".canv.root".toList s && tailNumOk (s.drop 10)) ||
    (startsWithStr ".root".toList s && tailNumOk (s.drop 5))

/-- Modelled from the spec: does the path end in the recognized primary
suffix pattern (some suffix of it is a full match of
`(\.canv)?(\.root)(\.\d*)?`)? -/
def endsInRecognizedSuffix (p : Str) : Bool := p.tails.any suffixFullMatch

/-- Model of `os.mkdir`: raises if the directory already exists,
otherwise records it. -/
def mkdirM (fs : List Str) (name : Str) : Except PyError (List Str) :=
  if name ∈ fs then Except.error PyError.fileExists else Except.ok (fs ++ [name])

/-- The head/tail pair `os.makedirs` works from: `head, tail =
path.split(name)`, re-split once when `tail` is empty (trailing-slash
case). -/
def mdSplit (name : Str) : Str × Str :=
  if (splitPath name).2 = [] then splitPath (splitPath name).1 else splitPath name

/-- Model of `os.makedirs(name)` (Python 2): recursively create the
missing ancestors, then `mkdir(name)`; the file system is the list of
existing directories. -/
def makedirs (fs : List Str) (name : Str) : Except PyError (List Str) :=
  match
    (if h : (mdSplit name).1 ≠ [] ∧ (mdSplit name).2 ≠ [] ∧ (mdSplit name).1 ∉ fs then
        makedirs fs (mdSplit name).1
      else Except.ok fs) with
  | Except.error e => Except.error e
  | Except.ok fs1 => mkdirM fs1 name
termination_by name.length
decreasing_by
  have hsr : ∀ p : Str, (splitRaw p).1 ++ (splitRaw p).2 = p := by
    intro p
    induction p with
    | nil => rfl
    | cons c cs ih =>
      simp only [splitRaw]
      split
      · simpa using ih
      · split
        · simp_all
        · simp
  have hlen : ∀ p : Str, (splitPath p).1.length + (splitPath p).2.length ≤ p.length := by
    intro p
    have h2 : (splitRaw p).1.length + (splitRaw p).2.length = p.length := by
      have := congrArg List.length (hsr p)
      simpa using this
    have h1 : (rstripSlash (splitRaw p).1).length ≤ (splitRaw p).1.length := by
      simp only [rstripSlash]
      simpa using (List.dropWhile_sublist (l := (splitRaw p).1.reverse)
        (fun c => c = '/')).length_le
    simp only [splitPath]
    split
    · dsimp only
      omega
    · omega
  rcases h with ⟨-, h2, -⟩
  have hpos : 0 < (mdSplit name).2.length := by
    cases hx : (mdSplit name).2 with
    | nil => exact absurd hx h2
    | cons a l => simp [hx]
  by_cases hc : (splitPath name).2 = []
  · have ha := hlen name
    have hb := hlen (splitPath name).1
    rw [mdSplit, if_pos hc] at hpos ⊢
    omega
  · have ha := hlen name
    rw [mdSplit, if_neg hc] at hpos ⊢
    omega

/-- Model of `make_dir_if_needed(path)` (lines 201-205): if the path has
a directory component that does not yet exist, create it (with its
ancestors). -/
def make_dir_if_needed (fs : List Str) (path : Str) : Except PyError (List Str) :=
  if countSlash path ≠ 0 then
    if dirnameOf path ∈ fs then Except.ok fs else makedirs fs (dirnameOf path)
  else Except.ok fs

/-- Observable side effects of `write_canvas`: directory materialization
and a render request to the external renderer (`canvas.SaveAs`). -/
inductive Ev : Type where
  | ensureDir (path : Str) : Ev
  | render (path : Str) : Ev
deriving DecidableEq

/-- The vector-image path derived on line 147: `eps = basepath + '.eps'`. -/
def canvasEps (basepath : Str) : Str := basepath ++ ".eps".toList

/-- The raster-image path derived on line 148: `png = basepath + '.png'`. -/
def canvasPng (basepath : Str) : Str := basepath ++ ".png".toList

/-- Model of `HighSlideRootFileIndex.write_canvas(canvas, basepath)`
(lines 143-150): ensure the parent directory of `basepath` exists, then
ask the renderer for the `.eps` artifact (`canvas.SaveAs(eps)`; the
`canvas.SaveAs(png)` call is commented out in the source).  Returns the
updated file system and the ordered list of effects. -/
def write_canvas (fs : List Str) (basepath : Str) : Except PyError (List Str × List Ev) :=
  match make_dir_if_needed fs basepath with
  | Except.error e => Except.error e
  | Except.ok fs1 =>
    Except.ok (fs1, [Ev.ensureDir basepath, Ev.render (canvasEps basepath)])

/-- Model of the summary-rate computation on line 112,
`float(n_plots)/(t_stop-t_start)`: exact arithmetic on `ℚ`, with `none`
for the `ZeroDivisionError` Python raises when the elapsed time is
exactly zero. -/
def avgRate (nPlots : Nat) (elapsed : ℚ) : Option ℚ :=
  if elapsed = 0 then none else some ((nPlots : ℚ) / elapsed)

mutual

/-- Modelled from the spec (§3 FullPath): the `/`-joined full paths of
all drawable (canvas) objects stored below a directory whose own full
path is `dp`, in storage order. -/
def specFullPathsKeys (dp : Str) : List (Str × RObj) → List Str
  | [] => []
  | (n, o) :: rest => specFullPathsObj dp n o ++ specFullPathsKeys dp rest
termination_by l => (sizeOf l, 0)
decreasing_by
  all_goals apply Prod.Lex.left
  all_goals simp
  all_goals omega

/-- Full paths of the drawable objects contributed by the single child
`n ↦ o` of a directory with full path `dp`. -/
def specFullPathsObj (dp n : Str) : RObj → List Str
  | RObj.tcanvas => [rootChildPath dp n]
  | RObj.tdir ks => specFullPathsKeys (rootChildPath dp n) ks
  | RObj.otherObj => []
termination_by o => (sizeOf o, 1)
decreasing_by
  apply Prod.Lex.left
  simp

end

/-- Modelled from the spec (§3 OutputPath, §8.1): the derived output
base paths of the drawable objects whose full path matches the filter --
the set the dispatched renders are claimed to equal. -/
def specCanvasList (dirname : Str) (keys : List (Str × RObj)) (praw : Str)
    (pre : RegularExpression Char) : List Str :=
  ((specFullPathsKeys [] keys).filter
      (fun p => praw = [] || reMatchPy pre p)).map (fun p => pathJoin dirname p)

mutual

/-- Modelled from the spec (§4.2): the full paths of all sub-groups
strictly below a directory whose own path is `dp`, in storage order. -/
def subGroupPathsKeys (dp : Str) : List (Str × RObj) → List Str
  | [] => []
  | (n, o) :: rest => subGroupPathsObj dp n o ++ subGroupPathsKeys dp rest
termination_by l => (sizeOf l, 0)
decreasing_by
  all_goals apply Prod.Lex.left
  all_goals simp
  all_goals omega

/-- Group paths contributed by the single child `n ↦ o`. -/
def subGroupPathsObj (dp n : Str) : RObj → List Str
  | RObj.tdir ks => rootChildPath dp n :: subGroupPathsKeys (rootChildPath dp n) ks
  | _ => []
termination_by o => (sizeOf o, 1)
decreasing_by
  apply Prod.Lex.left
  simp

end

/-- Modelled from the spec: every group of the hierarchy (the root `dp`
itself and all groups below it). -/
def allGroupPaths (dp : Str) (keys : List (Str × RObj)) : List Str :=
  dp :: subGroupPathsKeys dp keys

/-- Unique sibling key names, at every level of the tree (the spec's
sibling-name uniqueness, strengthened to be shared between the group and
object namespaces, which is what lookup by `Get` requires). -/
inductive UniqueNames : RObj → Prop where
  | canvas : UniqueNames RObj.tcanvas
  | other : UniqueNames RObj.otherObj
  | dir : ∀ keys, (keys.map Prod.fst).Nodup →
      (∀ n o, (n, o) ∈ keys → UniqueNames o) → UniqueNames (RObj.tdir keys)

/-- Key names that are nonempty and free of the path separator, at every
level (the spec flags separator-bearing names as unsupported). -/
inductive GoodNames : RObj → Prop where
  | canvas : GoodNames RObj.tcanvas
  | other : GoodNames RObj.otherObj
  | dir : ∀ keys,
      (∀ n o, (n, o) ∈ keys → n ≠ []) →
      (∀ n o, (n, o) ∈ keys → '/' ∉ n) →
      (∀ n o, (n, o) ∈ keys → GoodNames o) →
      GoodNames (RObj.tdir keys)

mutual

/-- Two trees holding the same content with possibly different native
enumeration order of each directory's keys: each key list of the first
is carried, entry by entry (same names, recursively reordered
subtrees), onto a permutation of the corresponding key list of the
second. -/
inductive EnumPerm : RObj → RObj → Prop where
  | canvas : EnumPerm RObj.tcanvas RObj.tcanvas
  | other : EnumPerm RObj.otherObj RObj.otherObj
  | dir : ∀ ks1 mid ks2, EnumPermKeys ks1 mid → mid.Perm ks2 →
      EnumPerm (RObj.tdir ks1) (RObj.tdir ks2)

/-- Entrywise carrier for `EnumPerm`: same names in the same positions,
recursively reordered subtrees. -/
inductive EnumPermKeys : List (Str × RObj) → List (Str × RObj) → Prop where
  | nil : EnumPermKeys [] []
  | cons : ∀ n o1 o2 t1 t2, EnumPerm o1 o2 → EnumPermKeys t1 t2 →
      EnumPermKeys ((n, o1) :: t1) ((n, o2) :: t2)

end

/-- Is the object a `TDirectory`? -/
def isDirObj : RObj → Bool
  | RObj.tdir _ => true
  | _ => false

mutual

/-- The outputs of `write_root_file` (valid pattern) regrouped by the
storage order of the entries: each canvas entry contributes its
dispatched output base path, each directory entry contributes the
outputs of its subtree.  The paths are built exactly as the code builds
them (`os.path.join` against the walk's directory path). -/
def codeOutKeys (d praw : Str) (pre : RegularExpression Char) (dp : Str) :
    List (Str × RObj) → List Str
  | [] => []
  | (n, o) :: rest => codeOutObj d praw pre dp n o ++ codeOutKeys d praw pre dp rest
termination_by l => (sizeOf l, 0)
decreasing_by
  all_goals apply Prod.Lex.left
  all_goals simp
  all_goals omega

/-- Outputs contributed by the single child `n ↦ o`. -/
def codeOutObj (d praw : Str) (pre : RegularExpression Char) (dp n : Str) :
    RObj → List Str
  | RObj.tcanvas =>
    if praw = [] ∨ reMatchPy pre (pathJoin dp n) = true then
      [pathJoin d (pathJoin dp n)]
    else []
  | RObj.tdir ks => codeOutKeys d praw pre (rootChildPath dp n) ks
  | RObj.otherObj => []
termination_by o => (sizeOf o, 1)
decreasing_by
  apply Prod.Lex.left
  simp

end

/-- A directory path that does not end in the separator (true of every
path the walk builds from separator-free nonempty names). -/
def GoodDirPath (dp : Str) : Prop := ∀ c, dp.getLast? = some c → c ≠ '/'

/-- Does the traversal of `write_root_file` reach any `TCanvas`?  (the
first such key is where a lazily raised pattern error would surface). -/
def walkHasCanvas (fname : Str) (keys : List (Str × RObj)) : Bool :=
  (walkDir true fname [] keys).any
    (fun r => r.filenames.any (fun k => isCanvasKey r.tdirKeys k))

/-! ### Order and sorting lemmas -/

theorem strLe_total : ∀ a b : Str, strLe a b = true ∨ strLe b a = true := by
  intro a
  induction a with
  | nil => intro b; left; rfl
  | cons x xs ih =>
    intro b
    cases b with
    | nil => right; rfl
    | cons y ys =>
      rcases lt_trichotomy x y with h | h | h
      · left; simp [strLe, h]
      · subst h
        rcases ih ys with h2 | h2
        · left; simp [strLe, lt_self_iff_false, h2]
        · right; simp [strLe, lt_self_iff_false, h2]
      · right; simp [strLe, h]

theorem strLe_trans :
    ∀ a b c : Str, strLe a b = true → strLe b c = true → strLe a c = true := by
  intro a
  induction a with
  | nil => intro b c _ _; rfl
  | cons x xs ih =>
    intro b c hab hbc
    cases b with
    | nil => simp [strLe] at hab
    | cons y ys =>
      cases c with
      | nil => simp [strLe] at hbc
      | cons z zs =>
        simp only [strLe] at hab hbc ⊢
        rcases lt_trichotomy x y with h1 | h1 | h1
        · rcases lt_trichotomy y z with h2 | h2 | h2
          · simp [lt_trans h1 h2]
          · subst h2; simp [h1]
          · simp [lt_asymm h2, h2] at hbc
        · subst h1
          rcases lt_trichotomy x z with h2 | h2 | h2
          · simp [h2]
          · subst h2
            simp only [lt_self_iff_false, if_false] at hab hbc ⊢
            exact ih _ _ hab hbc
          · simp [lt_asymm h2, h2] at hbc
        · simp [lt_asymm h1, h1] at hab

theorem strLe_antisymm : ∀ a b : Str, strLe a b = true → strLe b a = true → a = b := by
  intro a
  induction a with
  | nil =>
    intro b _ hba
    cases b with
    | nil => rfl
    | cons y ys => simp [strLe] at hba
  | cons x xs ih =>
    intro b hab hba
    cases b with
    | nil => simp [strLe] at hab
    | cons y ys =>
      simp only [strLe] at hab hba
      rcases lt_trichotomy x y with h1 | h1 | h1
      · simp [lt_asymm h1, h1] at hba
      · subst h1
        simp only [lt_self_iff_false, if_false] at hab hba
        rw [ih _ hab hba]
      · simp [lt_asymm h1, h1] at hab

theorem insStr_perm (x : Str) (l : List Str) : (insStr x l).Perm (x :: l) := by
  induction l with
  | nil => simp [insStr]
  | cons y ys ih =>
    by_cases h : strLe x y = true
    · simp [insStr, h]
    · simp only [insStr, h, if_false]
      exact (ih.cons y).trans (List.Perm.swap x y ys)

theorem sortStr_perm (l : List Str) : (sortStr l).Perm l := by
  induction l with
  | nil => simp [sortStr]
  | cons x xs ih => exact (insStr_perm x (sortStr xs)).trans (ih.cons x)

theorem mem_sortStr {x : Str} {l : List Str} : x ∈ sortStr l ↔ x ∈ l :=
  (sortStr_perm l).mem_iff

theorem insStr_sorted (x : Str) (l : List Str)
    (h : l.Pairwise (fun a b => strLe a b = true)) :
    (insStr x l).Pairwise (fun a b => strLe a b = true) := by
  induction l with
  | nil => simp [insStr]
  | cons y ys ih =>
    rw [List.pairwise_cons] at h
    by_cases hxy : strLe x y = true
    · simp only [insStr, hxy, if_true]
      refine List.Pairwise.cons ?_ (List.Pairwise.cons h.1 h.2)
      intro z hz
      rcases List.mem_cons.1 hz with rfl | hz
      · exact hxy
      · exact strLe_trans _ _ _ hxy (h.1 z hz)
    · simp only [insStr, hxy, if_false]
      refine List.Pairwise.cons ?_ (ih h.2)
      intro z hz
      have hz2 := (insStr_perm x ys).mem_iff.1 hz
      rcases List.mem_cons.1 hz2 with rfl | hz3
      · rcases strLe_total z y with htot | htot
        · exact absurd htot hxy
        · exact htot
      · exact h.1 z hz3

theorem sortStr_sorted (l : List Str) :
    (sortStr l).Pairwise (fun a b => strLe a b = true) := by
  induction l with
  | nil => simp [sortStr]
  | cons x xs ih => exact insStr_sorted x (sortStr xs) ih

theorem sortStr_eq_of_perm {l1 l2 : List Str} (h : l1.Perm l2) :
    sortStr l1 = sortStr l2 :=
  @List.eq_of_perm_of_sorted Str (fun a b => strLe a b = true)
    ⟨strLe_antisymm⟩ _ _ ((sortStr_perm l1).trans (h.trans (sortStr_perm l2).symm))
    (sortStr_sorted l1) (sortStr_sorted l2)

/-! ### Key-lookup lemmas -/

theorem getKey_mem {keys : List (Str × RObj)} {n : Str} {o : RObj}
    (h : getKey keys n = some o) : (n, o) ∈ keys := by
  induction keys with
  | nil => simp [getKey] at h
  | cons e rest ih =>
    obtain ⟨k, v⟩ := e
    simp only [getKey] at h
    split at h
    · rename_i hk
      cases h
      subst hk
      exact List.mem_cons_self _ _
    · exact List.mem_cons_of_mem _ (ih h)

theorem getKey_isSome_of_mem {keys : List (Str × RObj)} {n : Str}
    (h : n ∈ keys.map Prod.fst) : ∃ o, getKey keys n = some o := by
  induction keys with
  | nil => simp at h
  | cons e rest ih =>
    obtain ⟨k, v⟩ := e
    by_cases hk : k = n
    · subst hk
      exact ⟨v, by simp [getKey]⟩
    · have h2 : n ∈ rest.map Prod.fst := by
        simp only [List.map_cons, List.mem_cons] at h
        rcases h with h | h
        · exact absurd h.symm hk
        · exact h
      obtain ⟨o, ho⟩ := ih h2
      exact ⟨o, by simp [getKey, hk, ho]⟩

theorem getKey_of_mem_nodup {keys : List (Str × RObj)} {n : Str} {o : RObj}
    (hnd : (keys.map Prod.fst).Nodup) (h : (n, o) ∈ keys) :
    getKey keys n = some o := by
  induction keys with
  | nil => simp at h
  | cons e rest ih =>
    obtain ⟨k, v⟩ := e
    rw [List.map_cons, List.nodup_cons] at hnd
    rcases List.mem_cons.1 h with heq | h2
    · cases heq
      simp [getKey]
    · have hk : k ≠ n := by
        intro heq
        subst heq
        exact hnd.1 (List.mem_map.2 ⟨(k, o), h2, rfl⟩)
      simp only [getKey, hk, if_false]
      exact ih hnd.2 h2

theorem mem_map_fst_of_getKey {keys : List (Str × RObj)} {n : Str} {o : RObj}
    (h : getKey keys n = some o) : n ∈ keys.map Prod.fst :=
  List.mem_map.2 ⟨(n, o), getKey_mem h, rfl⟩

/-! ### Walk unfolding and membership -/

theorem walkDir_eq (td : Bool) (fp dp : Str) (keys : List (Str × RObj)) :
    walkDir td fp dp keys =
      (if td then [WRec.mk fp dp (dnsOf keys) (fnsOf keys) keys] else []) ++
        walkChildren td fp dp keys (dnsOf keys) ++
          (if td then [] else [WRec.mk fp dp (dnsOf keys) (fnsOf keys) keys]) := by
  rw [walkDir]

theorem walkChildren_nil (td : Bool) (fp dp : Str) (keys : List (Str × RObj)) :
    walkChildren td fp dp keys [] = [] := by
  rw [walkChildren]

theorem walkChildren_cons (td : Bool) (fp dp : Str) (keys : List (Str × RObj))
    (dn : Str) (rest : List Str) :
    walkChildren td fp dp keys (dn :: rest) =
      childWalk td fp dp keys dn ++ walkChildren td fp dp keys rest := by
  rw [walkChildren, childWalk]
  cases hg : getKey keys dn with
  | none => simp [hg]
  | some o => cases o <;> simp [hg]

/-! ### Input-suffix stripping (C2) -/

theorem stripAux_none_iff (s : Str) : ∀ acc : Str,
    (stripAux acc s = none ↔
      ∀ i ≤ s.length, ((s.take i).all (fun c => !c.isWhitespace)) = true →
        hasRootHere (s.drop i) = false) := by
  induction s with
  | nil =>
    intro acc
    have hb : hasRootHere [] = false := by decide
    constructor
    · intro _ i hi _
      have hz : i = 0 := Nat.le_zero.1 hi
      subst hz
      exact hb
    · intro _
      simp [stripAux, hb]
  | cons c cs ih =>
    intro acc
    cases hr : hasRootHere (c :: cs) with
    | true =>
      constructor
      · intro hnone
        rw [show stripAux acc (c :: cs) = some acc.reverse by simp [stripAux, hr]] at hnone
        cases hnone
      · intro hall
        have := hall 0 (Nat.zero_le _) (by simp)
        simp only [List.drop_zero] at this
        rw [hr] at this
        cases this
    | false =>
      cases hw : c.isWhitespace with
      | true =>
        constructor
        · intro _ i hi hall
          cases i with
          | zero => simpa using hr
          | succ j =>
            rw [List.take_succ_cons, List.all_cons, hw] at hall
            simp at hall
        · intro _
          simp [stripAux, hr, hw]
      | false =>
        rw [show stripAux acc (c :: cs) = stripAux (c :: acc) cs by
          simp [stripAux, hr, hw]]
        rw [ih (c :: acc)]
        constructor
        · intro h i hi hall
          cases i with
          | zero => simpa using hr
          | succ j =>
            rw [List.take_succ_cons, List.all_cons] at hall
            rw [List.drop_succ_cons]
            exact h j (by simpa using hi) (Bool.and_elim_right hall)
        · intro h j hj hall
          have := h (j + 1) (by simpa using hj)
          rw [List.take_succ_cons, List.all_cons, hw, List.drop_succ_cons] at this
          exact this (by simpa using hall)

/-- Claim C2 counterexample: `"run1.root.txt"` does not end in the
recognized primary suffix pattern, yet `strip_root_ext` succeeds on it
(Python's `re.match` is not anchored at the end of the string), so the
assertion cannot fail for every such input. -/
theorem strip_root_ext_not_end_anchored :
    endsInRecognizedSuffix "run1.root.txt".toList = false ∧
      strip_root_ext "run1.root.txt".toList = some "run1".toList := by
  constructor
  · decide
  · decide

/-- Claim C2, amended: `strip_root_ext` maps `"run1.canv.root"` to
`"run1"` and `"run1.root.2"` to `"run1"`, and it fails exactly on the
paths in which no whitespace-free prefix is immediately followed by
`".canv.root"` or `".root"` (rather than on every path that does not end
in the recognized suffix pattern); in particular it fails on
`"run1.txt"`. -/
theorem strip_root_ext_amended :
    strip_root_ext "run1.canv.root".toList = some "run1".toList ∧
    strip_root_ext "run1.root.2".toList = some "run1".toList ∧
    strip_root_ext "run1.txt".toList = none ∧
    ∀ p : Str, strip_root_ext p = none ↔
      ∀ i ≤ p.length, ((p.take i).all (fun c => !c.isWhitespace)) = true →
        hasRootHere (p.drop i) = false := by
  refine ⟨by decide, by decide, by decide, fun p => ?_⟩
  exact stripAux_none_iff p []

/-- Witness for C2: the amended failure characterization applied at the
concrete path `"ab"`. -/
theorem strip_root_ext_amended_witness : strip_root_ext "ab".toList = none := by
  have h := strip_root_ext_amended.2.2.2 "ab".toList
  exact h.2 (by decide)

/-! ### Filter semantics (C4) -/

/-- Claim C4: the object filter accepts iff the pattern string is empty,
or the (parsed) pattern matches some prefix of the full path -- anchored
at the start only, with no requirement to consume the whole string. -/
theorem filterEval_accept_iff (praw : Str) (r : RegularExpression Char) (s : Str) :
    filterEval praw (some r) s = Except.ok true ↔
      (praw = [] ∨ ∃ p, p <+: s ∧ p ∈ r.matches') := by
  by_cases hp : praw = []
  · simp [filterEval, hp]
  · simp only [filterEval, hp, if_false]
    constructor
    · intro h
      right
      have hm : reMatchPy r s = true := by
        cases hm : reMatchPy r s
        · rw [hm] at h; cases h
        · rfl
      simpa [reMatchPy] using hm
    · rintro (h | ⟨p, hp1, hp2⟩)
      · exact h.elim
      · have hm : reMatchPy r s = true := by
          apply List.any_eq_true.2
          exact ⟨p, (List.mem_inits _ _).2 hp1,
            (RegularExpression.rmatch_iff_matches' r p).2 hp2⟩
        rw [hm]

/-- Witness for C4: the empty pattern accepts a concrete path. -/
theorem filterEval_accept_iff_witness :
    filterEval [] (some (RegularExpression.zero)) "x".toList = Except.ok true :=
  (filterEval_accept_iff [] RegularExpression.zero "x".toList).2 (Or.inl rfl)

/-! ### Average-rate computation (C5) -/

/-- Claim C5 counterexample: at zero elapsed time the program's
`float(n_plots)/(t_stop-t_start)` raises `ZeroDivisionError` instead of
reporting the claimed rate `0`. -/
theorem avgRate_zero_divides :
    avgRate 1 0 = none ∧ avgRate 1 0 ≠ some 0 := by
  constructor
  · simp [avgRate]
  · simp [avgRate]

/-- Claim C5, amended: the reported average rate equals
`plotCount / elapsedSeconds` whenever the elapsed time is nonzero, and
the computation fails with `ZeroDivisionError` (is undefined) when the
elapsed time is exactly `0`. -/
theorem avgRate_amended :
    (∀ (n : Nat) (e : ℚ), e ≠ 0 → avgRate n e = some ((n : ℚ) / e)) ∧
      ∀ n : Nat, avgRate n 0 = none := by
  constructor
  · intro n e he
    simp [avgRate, he]
  · intro n
    simp [avgRate]

/-- Witness for C5: the amended statement applied at a concrete nonzero
elapsed time and at zero. -/
theorem avgRate_amended_witness :
    avgRate 3 2 = some ((3 : ℚ) / 2) ∧ avgRate 3 0 = none :=
  ⟨avgRate_amended.1 3 2 (by norm_num), avgRate_amended.2 3⟩

/-! ### Directory materialization (C7) -/

theorem splitRaw_append (p : Str) : (splitRaw p).1 ++ (splitRaw p).2 = p := by
  induction p with
  | nil => rfl
  | cons c cs ih =>
    simp only [splitRaw]
    split
    · simpa using ih
    · split
      · simp_all
      · simp

theorem splitPath_length (p : Str) :
    (splitPath p).1.length + (splitPath p).2.length ≤ p.length := by
  have h2 : (splitRaw p).1.length + (splitRaw p).2.length = p.length := by
    have := congrArg List.length (splitRaw_append p)
    simpa using this
  have h1 : (rstripSlash (splitRaw p).1).length ≤ (splitRaw p).1.length := by
    simp only [rstripSlash]
    simpa using (List.dropWhile_sublist (l := (splitRaw p).1.reverse)
      (fun c => c = '/')).length_le
  simp only [splitPath]
  split
  · dsimp only
    omega
  · omega

theorem mdSplit_length {name : Str} (h : (mdSplit name).2 ≠ []) :
    (mdSplit name).1.length < name.length := by
  have hpos : 0 < (mdSplit name).2.length := by
    cases hx : (mdSplit name).2 with
    | nil => exact absurd hx h
    | cons a l => simp [hx]
  by_cases hc : (splitPath name).2 = []
  · have ha := splitPath_length name
    have hb := splitPath_length (splitPath name).1
    rw [mdSplit, if_pos hc] at hpos ⊢
    omega
  · have ha := splitPath_length name
    have hpos2 : 0 < (splitPath name).2.length := by
      cases hx : (splitPath name).2 with
      | nil => exact absurd hx hc
      | cons a l => simp [hx]
    rw [mdSplit, if_neg hc] at hpos ⊢
    omega

theorem makedirs_ok : ∀ (N : Nat) (name : Str) (fs : List Str), name.length ≤ N →
    name ∉ fs → ∃ fs', makedirs fs name = Except.ok fs' ∧ name ∈ fs' ∧
      (∀ x ∈ fs, x ∈ fs') ∧ (∀ x ∈ fs', x ∈ fs ∨ x.length ≤ name.length) := by
  intro N
  induction N with
  | zero =>
    intro name fs hN hnot
    rw [makedirs]
    by_cases hcond : (mdSplit name).1 ≠ [] ∧ (mdSplit name).2 ≠ [] ∧ (mdSplit name).1 ∉ fs
    · have := mdSplit_length hcond.2.1
      omega
    · rw [dif_neg hcond]
      refine ⟨fs ++ [name], ?_, by simp, fun x hx => by simp [hx], fun x hx => ?_⟩
      · simp [mkdirM, hnot]
      · rcases List.mem_append.1 hx with hx | hx
        · exact Or.inl hx
        · simp at hx
          subst hx
          exact Or.inr le_rfl
  | succ N ih =>
    intro name fs hN hnot
    rw [makedirs]
    by_cases hcond : (mdSplit name).1 ≠ [] ∧ (mdSplit name).2 ≠ [] ∧ (mdSplit name).1 ∉ fs
    · have hlt := mdSplit_length hcond.2.1
      obtain ⟨fs1, heq, hmem1, hsub1, hbound1⟩ :=
        ih (mdSplit name).1 fs (by omega) hcond.2.2
      rw [dif_pos hcond, heq]
      have hn1 : name ∉ fs1 := by
        intro hmem
        rcases hbound1 name hmem with h | h
        · exact hnot h
        · omega
      refine ⟨fs1 ++ [name], ?_, by simp, fun x hx => by simp [hsub1 x hx],
        fun x hx => ?_⟩
      · simp [mkdirM, hn1]
      · rcases List.mem_append.1 hx with hx | hx
        · rcases hbound1 x hx with h | h
          · exact Or.inl h
          · exact Or.inr (by omega)
        · simp at hx
          subst hx
          exact Or.inr le_rfl
    · rw [dif_neg hcond]
      refine ⟨fs ++ [name], ?_, by simp, fun x hx => by simp [hx], fun x hx => ?_⟩
      · simp [mkdirM, hnot]
      · rcases List.mem_append.1 hx with hx | hx
        · exact Or.inl hx
        · simp at hx
          subst hx
          exact Or.inr le_rfl

theorem make_dir_if_needed_ok (fs : List Str) (path : Str) :
    ∃ fs', make_dir_if_needed fs path = Except.ok fs' ∧ (∀ x ∈ fs, x ∈ fs') ∧
      (countSlash path ≠ 0 → dirnameOf path ∈ fs') ∧
      (countSlash path = 0 → fs' = fs) ∧ (dirnameOf path ∈ fs → fs' = fs) := by
  by_cases hc : countSlash path ≠ 0
  · by_cases hd : dirnameOf path ∈ fs
    · exact ⟨fs, by simp [make_dir_if_needed, hc, hd], fun x hx => hx,
        fun _ => hd, fun h => absurd hc (by simp [h]), fun _ => rfl⟩
    · obtain ⟨fs', heq, hmem, hsub, _⟩ :=
        makedirs_ok (dirnameOf path).length (dirnameOf path) fs le_rfl hd
      refine ⟨fs', ?_, hsub, fun _ => hmem, fun h => absurd hc (by simp [h]),
        fun h => absurd h hd⟩
      simp [make_dir_if_needed, hc, hd, heq]
  · push_neg at hc
    exact ⟨fs, by simp [make_dir_if_needed, hc], fun x hx => hx,
      fun h => absurd hc h, fun _ => rfl, fun _ => rfl⟩

/-- Claim C7: `make_dir_if_needed` is total on its success path (it never
fails, in particular not on a second call for the same path or for a path
sharing an ancestor), it is idempotent and leaves the parent directory
present, it is a no-op when the parent directory already exists, and it
is a non-failing no-op when the path has no directory component. -/
theorem make_dir_if_needed_claim :
    (∀ fs path, ∃ fs', make_dir_if_needed fs path = Except.ok fs') ∧
    (∀ fs path fs', make_dir_if_needed fs path = Except.ok fs' →
        make_dir_if_needed fs' path = Except.ok fs' ∧
        (countSlash path ≠ 0 → dirnameOf path ∈ fs')) ∧
    (∀ fs path, countSlash path = 0 → make_dir_if_needed fs path = Except.ok fs) ∧
    (∀ fs path, dirnameOf path ∈ fs → make_dir_if_needed fs path = Except.ok fs) := by
  have hnoop : ∀ fs path, dirnameOf path ∈ fs →
      make_dir_if_needed fs path = Except.ok fs := by
    intro fs path h
    by_cases hc : countSlash path ≠ 0
    · simp [make_dir_if_needed, hc, h]
    · push_neg at hc
      simp [make_dir_if_needed, hc]
  have hzero : ∀ fs path, countSlash path = 0 →
      make_dir_if_needed fs path = Except.ok fs := by
    intro fs path h
    simp [make_dir_if_needed, h]
  refine ⟨fun fs path => ?_, fun fs path fs' heq => ?_, hzero, hnoop⟩
  · obtain ⟨fs', h, _⟩ := make_dir_if_needed_ok fs path
    exact ⟨fs', h⟩
  · obtain ⟨fs'', h, _, hdir, hz, _⟩ := make_dir_if_needed_ok fs path
    rw [heq] at h
    cases h
    by_cases hc : countSlash path ≠ 0
    · exact ⟨hnoop _ _ (hdir hc), fun _ => hdir hc⟩
    · push_neg at hc
      exact ⟨hzero _ _ hc, fun h => absurd hc h⟩

/-- Witness for C7: a second invocation on a path whose parent directory
is already present is a successful no-op. -/
theorem make_dir_if_needed_claim_witness :
    make_dir_if_needed ["a".toList] "a/b.eps".toList = Except.ok ["a".toList] :=
  make_dir_if_needed_claim.2.2.2 ["a".toList] "a/b.eps".toList (by decide)

/-! ### Walk membership and record shape -/

theorem getKey_sizeOf {keys : List (Str × RObj)} {n : Str} {o : RObj}
    (h : getKey keys n = some o) : sizeOf o < sizeOf keys := by
  induction keys with
  | nil => simp [getKey] at h
  | cons e rest ih =>
    obtain ⟨k, v⟩ := e
    simp only [getKey] at h
    split at h
    · cases h; simp; omega
    · have := ih h; simp; omega

theorem mem_childWalk {td : Bool} {fp dp : Str} {keys : List (Str × RObj)}
    {dn : Str} {r : WRec} :
    r ∈ childWalk td fp dp keys dn ↔
      ∃ ks, getKey keys dn = some (RObj.tdir ks) ∧
        r ∈ walkDir td fp (rootChildPath dp dn) ks := by
  unfold childWalk
  constructor
  · intro h
    cases hg : getKey keys dn with
    | none => rw [hg] at h; simp at h
    | some o =>
      cases o with
      | tdir ks => rw [hg] at h; exact ⟨ks, rfl, h⟩
      | tcanvas => rw [hg] at h; simp at h
      | otherObj => rw [hg] at h; simp at h
  · rintro ⟨ks, hg, hr⟩
    rw [hg]
    exact hr

theorem mem_walkChildren {td : Bool} {fp dp : Str} {keys : List (Str × RObj)}
    {dns : List Str} {r : WRec} :
    r ∈ walkChildren td fp dp keys dns ↔
      ∃ dn ∈ dns, ∃ ks, getKey keys dn = some (RObj.tdir ks) ∧
        r ∈ walkDir td fp (rootChildPath dp dn) ks := by
  induction dns with
  | nil => simp [walkChildren_nil]
  | cons dn rest ih =>
    rw [walkChildren_cons]
    simp only [List.mem_append, ih, List.mem_cons]
    constructor
    · rintro (h | ⟨dn', hdn', hrest⟩)
      · obtain ⟨ks, hg, hr⟩ := mem_childWalk.1 h
        exact ⟨dn, Or.inl rfl, ks, hg, hr⟩
      · exact ⟨dn', Or.inr hdn', hrest⟩
    · rintro ⟨dn', hdn', ks, hg, hr⟩
      rcases hdn' with rfl | hdn'
      · exact Or.inl (mem_childWalk.2 ⟨ks, hg, hr⟩)
      · exact Or.inr ⟨dn', hdn', ks, hg, hr⟩

theorem mem_walkDir {td : Bool} {fp dp : Str} {keys : List (Str × RObj)} {r : WRec} :
    r ∈ walkDir td fp dp keys ↔
      r = WRec.mk fp dp (dnsOf keys) (fnsOf keys) keys ∨
        ∃ dn ∈ dnsOf keys, ∃ ks, getKey keys dn = some (RObj.tdir ks) ∧
          r ∈ walkDir td fp (rootChildPath dp dn) ks := by
  rw [walkDir_eq]
  cases td with
  | true => simp [mem_walkChildren]
  | false =>
    constructor
    · intro h
      simp only [List.mem_append] at h
      rcases h with (h | h) | h
      · simp at h
      · exact Or.inr (mem_walkChildren.1 h)
      · simp at h
        exact Or.inl h
    · intro h
      simp only [List.mem_append]
      rcases h with h | h
      · right
        simp [h]
      · exact Or.inl (Or.inr (mem_walkChildren.2 h))

theorem walk_shape : ∀ (N : Nat) (keys : List (Str × RObj)), sizeOf keys ≤ N →
    ∀ (td : Bool) (fp dp : Str) (r : WRec), r ∈ walkDir td fp dp keys →
      r.dirnames = dnsOf r.tdirKeys ∧ r.filenames = fnsOf r.tdirKeys := by
  intro N
  induction N with
  | zero =>
    intro keys hN
    have : 0 < sizeOf keys := by cases keys <;> simp
    omega
  | succ N ih =>
    intro keys hN td fp dp r hr
    rcases mem_walkDir.1 hr with rfl | ⟨dn, hdn, ks, hg, hr2⟩
    · exact ⟨rfl, rfl⟩
    · have hsz : sizeOf ks ≤ N := by
        have h1 := getKey_sizeOf hg
        simp at h1
        omega
      exact ih ks hsz td fp _ r hr2

theorem dnsOf_fnsOf_perm (keys : List (Str × RObj)) :
    (dnsOf keys ++ fnsOf keys).Perm (keys.map Prod.fst) := by
  have h1 := sortStr_perm ((keys.map Prod.fst).filter (fun n => isDirKey keys n))
  have h2 := sortStr_perm ((keys.map Prod.fst).filter (fun n => !isDirKey keys n))
  exact (h1.append h2).trans (List.filter_append_perm _ _)

theorem mem_dnsOf {keys : List (Str × RObj)} {n : Str} :
    n ∈ dnsOf keys ↔ n ∈ keys.map Prod.fst ∧ isDirKey keys n = true := by
  rw [dnsOf, mem_sortStr, List.mem_filter]

theorem mem_fnsOf {keys : List (Str × RObj)} {n : Str} :
    n ∈ fnsOf keys ↔ n ∈ keys.map Prod.fst ∧ isDirKey keys n = false := by
  rw [fnsOf, mem_sortStr, List.mem_filter]
  simp

/-- Claim C10: for every group visited by `walk`, the yielded `dirnames`
and `filenames` partition that group's child keys: together they are a
permutation of the key-name list, a name is in `dirnames` iff it
resolves (via `Get`) to a directory, and in `filenames` iff it does
not. -/
theorem walk_partition (td : Bool) (fp dp : Str) (keys : List (Str × RObj)) :
    ∀ r ∈ walkDir td fp dp keys,
      (r.dirnames ++ r.filenames).Perm (r.tdirKeys.map Prod.fst) ∧
      (∀ n, n ∈ r.dirnames ↔ n ∈ r.tdirKeys.map Prod.fst ∧
        isDirKey r.tdirKeys n = true) ∧
      (∀ n, n ∈ r.filenames ↔ n ∈ r.tdirKeys.map Prod.fst ∧
        isDirKey r.tdirKeys n = false) := by
  intro r hr
  obtain ⟨hd, hf⟩ := walk_shape (sizeOf keys) keys le_rfl td fp dp r hr
  rw [hd, hf]
  exact ⟨dnsOf_fnsOf_perm _, fun n => mem_dnsOf, fun n => mem_fnsOf⟩

/-- Witness for C10: the root record of a concrete one-canvas file
satisfies the partition property. -/
theorem walk_partition_witness :
    (WRec.mk "f.root".toList [] (dnsOf [("a".toList, RObj.tcanvas)])
        (fnsOf [("a".toList, RObj.tcanvas)]) [("a".toList, RObj.tcanvas)]) ∈
      walkDir true "f.root".toList [] [("a".toList, RObj.tcanvas)] ∧
    (dnsOf [("a".toList, RObj.tcanvas)] ++ fnsOf [("a".toList, RObj.tcanvas)]).Perm
      ([("a".toList, RObj.tcanvas)].map Prod.fst) := by
  have hmem : (WRec.mk "f.root".toList [] (dnsOf [("a".toList, RObj.tcanvas)])
      (fnsOf [("a".toList, RObj.tcanvas)]) [("a".toList, RObj.tcanvas)]) ∈
        walkDir true "f.root".toList [] [("a".toList, RObj.tcanvas)] :=
    mem_walkDir.2 (Or.inl rfl)
  exact ⟨hmem,
    (walk_partition true "f.root".toList [] [("a".toList, RObj.tcanvas)] _ hmem).1⟩

/-! ### Traversal order (C3) -/

theorem walkDir_true_eq (fp dp : Str) (keys : List (Str × RObj)) :
    walkDir true fp dp keys =
      WRec.mk fp dp (dnsOf keys) (fnsOf keys) keys ::
        walkChildren true fp dp keys (dnsOf keys) := by
  rw [walkDir_eq]
  simp

theorem walk_sorted (td : Bool) (fp dp : Str) (keys : List (Str × RObj)) :
    ∀ r ∈ walkDir td fp dp keys,
      r.dirnames.Pairwise (fun a b => strLe a b = true) ∧
      r.filenames.Pairwise (fun a b => strLe a b = true) := by
  intro r hr
  obtain ⟨hd, hf⟩ := walk_shape (sizeOf keys) keys le_rfl td fp dp r hr
  rw [hd, hf]
  exact ⟨sortStr_sorted _, sortStr_sorted _⟩

theorem walkChildren_eq_flatMap (td : Bool) (fp dp : Str)
    (keys : List (Str × RObj)) (dns : List Str) :
    walkChildren td fp dp keys dns = dns.flatMap (childWalk td fp dp keys) := by
  induction dns with
  | nil => simp [walkChildren_nil]
  | cons dn rest ih =>
    rw [walkChildren_cons, ih]
    simp [List.flatMap_cons]

theorem flatMap_split {a b : Type} (f : a → List b) :
    ∀ (l : List a) (l1 : List b) (r : b) (l2 : List b),
      l.flatMap f = l1 ++ r :: l2 →
      ∃ xs1 x xs2 w1 w2, l = xs1 ++ x :: xs2 ∧ f x = w1 ++ r :: w2 ∧
        l1 = xs1.flatMap f ++ w1 := by
  intro l
  induction l with
  | nil =>
    intro l1 r l2 h
    rw [List.flatMap_nil] at h
    cases l1 <;> simp at h
  | cons x xs ih =>
    intro l1 r l2 h
    rw [List.flatMap_cons] at h
    rcases List.append_eq_append_iff.1 h with ⟨a2, ha1, ha2⟩ | ⟨c2, hc1, hc2⟩
    · obtain ⟨xs1, x2, xs2, w1, w2, hl, hfx, hl1⟩ := ih a2 r l2 ha2
      refine ⟨x :: xs1, x2, xs2, w1, w2, by rw [hl]; rfl, hfx, ?_⟩
      rw [ha1, hl1, List.flatMap_cons, List.append_assoc]
    · cases c2 with
      | nil =>
        rw [List.nil_append] at hc2
        obtain ⟨xs1, x2, xs2, w1, w2, hl, hfx, hl1⟩ := ih [] r l2 hc2.symm
        have hw1 : xs1.flatMap f = [] ∧ w1 = [] := by
          have := hl1.symm
          exact List.append_eq_nil.1 this
        refine ⟨x :: xs1, x2, xs2, w1, w2, by rw [hl]; rfl, hfx, ?_⟩
        rw [List.flatMap_cons, hw1.1, hw1.2, List.append_nil, List.append_nil]
        rw [hc1, List.append_nil]
      | cons c0 c3 =>
        have hc0 : c0 = r ∧ c3 ++ xs.flatMap f = l2 := by
          rw [List.cons_append] at hc2
          obtain ⟨h1, h2⟩ := List.cons.inj hc2
          exact ⟨h1.symm, h2.symm⟩
        refine ⟨[], x, xs, l1, c3, rfl, ?_, by simp⟩
        rw [hc1, hc0.1]

theorem childWalk_dir {td : Bool} {fp dp : Str} {keys : List (Str × RObj)}
    {dn : Str} {ks : List (Str × RObj)}
    (h : getKey keys dn = some (RObj.tdir ks)) :
    childWalk td fp dp keys dn = walkDir td fp (rootChildPath dp dn) ks := by
  unfold childWalk
  rw [h]

theorem childWalk_none {td : Bool} {fp dp : Str} {keys : List (Str × RObj)}
    {dn : Str} (h : getKey keys dn = none) :
    childWalk td fp dp keys dn = [] := by
  unfold childWalk
  rw [h]

theorem childWalk_canvas {td : Bool} {fp dp : Str} {keys : List (Str × RObj)}
    {dn : Str} (h : getKey keys dn = some RObj.tcanvas) :
    childWalk td fp dp keys dn = [] := by
  unfold childWalk
  rw [h]

theorem childWalk_other {td : Bool} {fp dp : Str} {keys : List (Str × RObj)}
    {dn : Str} (h : getKey keys dn = some RObj.otherObj) :
    childWalk td fp dp keys dn = [] := by
  unfold childWalk
  rw [h]

theorem walk_parent_before : ∀ (N : Nat) (keys : List (Str × RObj)),
    sizeOf keys ≤ N →
    ∀ (fp dp : Str) (l1 : List WRec) (r : WRec) (l2 : List WRec),
      walkDir true fp dp keys = l1 ++ r :: l2 →
      l1 = [] ∨ ∃ r2 ∈ l1, ∃ dn ∈ r2.dirnames,
        r.dirPart = rootChildPath r2.dirPart dn := by
  intro N
  induction N with
  | zero =>
    intro keys hN
    have : 0 < sizeOf keys := by cases keys <;> simp
    omega
  | succ N ih =>
    intro keys hN fp dp l1 r l2 heq
    rw [walkDir_true_eq] at heq
    cases l1 with
    | nil => exact Or.inl rfl
    | cons a l1' =>
      right
      rw [List.cons_append] at heq
      have ha : a = WRec.mk fp dp (dnsOf keys) (fnsOf keys) keys :=
        (List.cons.inj heq).1.symm
      have hWC : walkChildren true fp dp keys (dnsOf keys) = l1' ++ r :: l2 :=
        (List.cons.inj heq).2
      rw [walkChildren_eq_flatMap] at hWC
      obtain ⟨xs1, dn, xs2, w1, w2, hdns, hcw, hl1⟩ :=
        flatMap_split _ _ _ _ _ hWC
      have hdnmem : dn ∈ dnsOf keys := by
        rw [hdns]
        exact List.mem_append.2 (Or.inr (List.mem_cons_self _ _))
      cases hg : getKey keys dn with
      | none => rw [childWalk_none hg] at hcw; cases w1 <;> simp at hcw
      | some o =>
        cases o with
        | tcanvas => rw [childWalk_canvas hg] at hcw; cases w1 <;> simp at hcw
        | otherObj => rw [childWalk_other hg] at hcw; cases w1 <;> simp at hcw
        | tdir ks =>
          rw [childWalk_dir hg] at hcw
          cases w1 with
          | nil =>
            rw [walkDir_true_eq, List.nil_append] at hcw
            have hr : r = WRec.mk fp (rootChildPath dp dn) (dnsOf ks) (fnsOf ks) ks :=
              (List.cons.inj hcw).1.symm
            refine ⟨a, List.mem_cons_self _ _, dn, ?_, ?_⟩
            · rw [ha]
              exact hdnmem
            · rw [hr, ha]
          | cons w0 w1' =>
            have hsz : sizeOf ks ≤ N := by
              have h1 := getKey_sizeOf hg
              simp at h1
              omega
            rcases ih ks hsz fp (rootChildPath dp dn) (w0 :: w1') r w2 hcw with
              hnil | ⟨r2, hr2, dn2, hdn2, hpath⟩
            · cases hnil
            · refine ⟨r2, ?_, dn2, hdn2, hpath⟩
              apply List.mem_cons_of_mem
              rw [hl1]
              exact List.mem_append.2 (Or.inr hr2)

theorem walkDir_false_eq (fp dp : Str) (keys : List (Str × RObj)) :
    walkDir false fp dp keys =
      walkChildren false fp dp keys (dnsOf keys) ++
        [WRec.mk fp dp (dnsOf keys) (fnsOf keys) keys] := by
  rw [walkDir_eq]
  simp

theorem epk_names : ∀ (ks1 mid : List (Str × RObj)), EnumPermKeys ks1 mid →
    ks1.map Prod.fst = mid.map Prod.fst := by
  intro ks1
  induction ks1 with
  | nil =>
    intro mid h
    cases h
    rfl
  | cons e t ih =>
    intro mid h
    cases h with
    | cons n o1 o2 t1 t2 ho ht => simp [ih t2 ht]

theorem epk_getKey : ∀ (ks1 mid : List (Str × RObj)), EnumPermKeys ks1 mid →
    ∀ (n : Str) (o1 : RObj), getKey ks1 n = some o1 →
      ∃ o2, getKey mid n = some o2 ∧ EnumPerm o1 o2 := by
  intro ks1
  induction ks1 with
  | nil =>
    intro mid h n o1 hg
    cases h
    simp [getKey] at hg
  | cons e t ih =>
    intro mid h n o1 hg
    cases h with
    | cons n2 a1 a2 t1 t2 ho ht =>
      simp only [getKey] at hg ⊢
      split at hg
      · cases hg
        rename_i hn2
        rw [if_pos hn2]
        exact ⟨a2, rfl, ho⟩
      · rename_i hn2
        rw [if_neg hn2]
        exact ih t2 ht n o1 hg

theorem UniqueNames_nodup {keys : List (Str × RObj)}
    (h : UniqueNames (RObj.tdir keys)) : (keys.map Prod.fst).Nodup := by
  cases h with
  | dir _ hnd _ => exact hnd

theorem UniqueNames_child {keys : List (Str × RObj)}
    (h : UniqueNames (RObj.tdir keys)) {n : Str} {o : RObj}
    (hm : (n, o) ∈ keys) : UniqueNames o := by
  cases h with
  | dir _ _ hch => exact hch n o hm

theorem EnumPerm_names {ks1 ks2 : List (Str × RObj)}
    (h : EnumPerm (RObj.tdir ks1) (RObj.tdir ks2)) :
    (ks1.map Prod.fst).Perm (ks2.map Prod.fst) := by
  cases h with
  | dir ks1 mid ks2 hfk hperm =>
    rw [epk_names ks1 mid hfk]
    exact hperm.map _

theorem EnumPerm_getKey {ks1 ks2 : List (Str × RObj)}
    (h : EnumPerm (RObj.tdir ks1) (RObj.tdir ks2))
    (hnd : (ks1.map Prod.fst).Nodup) :
    ∀ (n : Str) (o1 : RObj), getKey ks1 n = some o1 →
      ∃ o2, getKey ks2 n = some o2 ∧ EnumPerm o1 o2 := by
  cases h with
  | dir ks1 mid ks2 hfk hperm =>
    intro n o1 hg
    obtain ⟨om, hgm, hom⟩ := epk_getKey ks1 mid hfk n o1 hg
    have hmem : (n, om) ∈ ks2 := hperm.mem_iff.1 (getKey_mem hgm)
    have hnd2 : (ks2.map Prod.fst).Nodup := by
      have hmapperm : (mid.map Prod.fst).Perm (ks2.map Prod.fst) := hperm.map _
      rw [← epk_names ks1 mid hfk] at hmapperm
      exact hmapperm.nodup_iff.1 hnd
    exact ⟨om, getKey_of_mem_nodup hnd2 hmem, hom⟩

theorem EnumPerm_isDirKey {ks1 ks2 : List (Str × RObj)}
    (h : EnumPerm (RObj.tdir ks1) (RObj.tdir ks2))
    (hnd : (ks1.map Prod.fst).Nodup) :
    ∀ n ∈ ks1.map Prod.fst, isDirKey ks1 n = isDirKey ks2 n := by
  intro n hn
  obtain ⟨o1, hg1⟩ := getKey_isSome_of_mem hn
  obtain ⟨o2, hg2, ho⟩ := EnumPerm_getKey h hnd n o1 hg1
  unfold isDirKey
  rw [hg1, hg2]
  cases ho <;> rfl

theorem walk_enum_perm : ∀ (N : Nat) (ks1 : List (Str × RObj)), sizeOf ks1 ≤ N →
    ∀ ks2 : List (Str × RObj), UniqueNames (RObj.tdir ks1) →
      EnumPerm (RObj.tdir ks1) (RObj.tdir ks2) →
      ∀ (td : Bool) (fp dp : Str),
        (walkDir td fp dp ks1).map projWRec = (walkDir td fp dp ks2).map projWRec := by
  intro N
  induction N with
  | zero =>
    intro ks1 hN
    have : 0 < sizeOf ks1 := by cases ks1 <;> simp
    omega
  | succ N ih =>
    intro ks1 hN ks2 hU hEP td fp dp
    have hnd := UniqueNames_nodup hU
    have hnames := EnumPerm_names hEP
    have hclass := EnumPerm_isDirKey hEP hnd
    have hdns : dnsOf ks1 = dnsOf ks2 := by
      unfold dnsOf
      have hstep1 : (ks2.map Prod.fst).filter (fun n => isDirKey ks2 n) =
          (ks2.map Prod.fst).filter (fun n => isDirKey ks1 n) :=
        List.filter_congr (fun n hn => (hclass n (hnames.mem_iff.2 hn)).symm)
      rw [hstep1]
      exact sortStr_eq_of_perm (hnames.filter _)
    have hfns : fnsOf ks1 = fnsOf ks2 := by
      unfold fnsOf
      have hstep1 : (ks2.map Prod.fst).filter (fun n => !isDirKey ks2 n) =
          (ks2.map Prod.fst).filter (fun n => !isDirKey ks1 n) :=
        List.filter_congr (fun n hn => by
          rw [hclass n (hnames.mem_iff.2 hn)])
      rw [hstep1]
      exact sortStr_eq_of_perm (hnames.filter _)
    have hch : ∀ dns : List Str, (∀ dn ∈ dns, dn ∈ dnsOf ks1) →
        (walkChildren td fp dp ks1 dns).map projWRec =
        (walkChildren td fp dp ks2 dns).map projWRec := by
      intro dns
      induction dns with
      | nil =>
        intro _
        simp [walkChildren_nil]
      | cons dn rest ihd =>
        intro hmem
        rw [walkChildren_cons, walkChildren_cons, List.map_append, List.map_append]
        have hdn := hmem dn (List.mem_cons_self _ _)
        rw [ihd (fun x hx => hmem x (List.mem_cons_of_mem _ hx))]
        congr 1
        have hdnn : dn ∈ ks1.map Prod.fst := (mem_dnsOf.1 hdn).1
        obtain ⟨o1, hg1⟩ := getKey_isSome_of_mem hdnn
        obtain ⟨o2, hg2, ho⟩ := EnumPerm_getKey hEP hnd dn o1 hg1
        cases ho with
        | canvas => rw [childWalk_canvas hg1, childWalk_canvas hg2]
        | other => rw [childWalk_other hg1, childWalk_other hg2]
        | dir a mid2 b hfk2 hperm2 =>
          rw [childWalk_dir hg1, childWalk_dir hg2]
          have hU2 : UniqueNames (RObj.tdir a) := UniqueNames_child hU (getKey_mem hg1)
          have hsz : sizeOf a ≤ N := by
            have := getKey_sizeOf hg1
            simp at this
            omega
          exact ih a hsz b hU2 (EnumPerm.dir a mid2 b hfk2 hperm2) td fp
            (rootChildPath dp dn)
    cases td with
    | true =>
      rw [walkDir_true_eq, walkDir_true_eq, hdns, hfns, List.map_cons, List.map_cons]
      rw [hch (dnsOf ks2) (fun dn hdn => by rw [hdns]; exact hdn)]
      rfl
    | false =>
      rw [walkDir_false_eq, walkDir_false_eq, hdns, hfns, List.map_append,
        List.map_append]
      rw [hch (dnsOf ks2) (fun dn hdn => by rw [hdns]; exact hdn)]
      rfl

/-- Claim C3 counterexample: two trees holding the same keys in
different native enumeration order (legal under the spec data model: the
single group name `"a"` and the single object name `"a"` live in
independent namespaces) on which `walk` produces different visitation
sequences: `Get("a")` resolves to whichever entry is enumerated first,
so one order never descends into the group while the other does twice. -/
theorem walk_enum_order_dependent :
    EnumPerm (RObj.tdir [("a".toList, RObj.tcanvas), ("a".toList, RObj.tdir [])])
      (RObj.tdir [("a".toList, RObj.tdir []), ("a".toList, RObj.tcanvas)]) ∧
    (walkObj true "f.root".toList []
        (RObj.tdir [("a".toList, RObj.tcanvas), ("a".toList, RObj.tdir [])])).map
          projWRec ≠
      (walkObj true "f.root".toList []
          (RObj.tdir [("a".toList, RObj.tdir []), ("a".toList, RObj.tcanvas)])).map
        projWRec := by
  constructor
  · refine EnumPerm.dir _
      [("a".toList, RObj.tcanvas), ("a".toList, RObj.tdir [])] _ ?_ ?_
    · exact EnumPermKeys.cons "a".toList RObj.tcanvas RObj.tcanvas _ _
        EnumPerm.canvas
        (EnumPermKeys.cons "a".toList (RObj.tdir []) (RObj.tdir []) [] []
          (EnumPerm.dir [] [] [] EnumPermKeys.nil (List.Perm.nil))
          EnumPermKeys.nil)
    · exact List.Perm.swap ("a".toList, RObj.tdir []) ("a".toList, RObj.tcanvas) []
  · simp [walkObj, projWRec, walkDir, walkChildren, dnsOf, fnsOf, sortStr, insStr,
      strLe, getKey, isDirKey, rootChildPath]

/-- Claim C3, amended: `walk` yields records depth-first with every
parent record preceding its children's records, the yielded child-group
and child-object name lists are lexicographically sorted, and -- for
hierarchies whose sibling key names are unique (shared between the group
and object namespaces) -- the projected visitation sequence is identical
for any native enumeration order of the keys. -/
theorem walk_order_amended :
    (∀ (td : Bool) (fp dp : Str) (keys : List (Str × RObj)),
      ∀ r ∈ walkDir td fp dp keys,
        r.dirnames.Pairwise (fun a b => strLe a b = true) ∧
        r.filenames.Pairwise (fun a b => strLe a b = true)) ∧
    (∀ (fp dp : Str) (keys : List (Str × RObj)) (l1 : List WRec) (r : WRec)
        (l2 : List WRec),
      walkDir true fp dp keys = l1 ++ r :: l2 →
      l1 = [] ∨ ∃ r2 ∈ l1, ∃ dn ∈ r2.dirnames,
        r.dirPart = rootChildPath r2.dirPart dn) ∧
    (∀ t1 t2 : RObj, UniqueNames t1 → EnumPerm t1 t2 →
      ∀ (td : Bool) (fp dp : Str),
        (walkObj td fp dp t1).map projWRec = (walkObj td fp dp t2).map projWRec) := by
  refine ⟨walk_sorted,
    fun fp dp keys l1 r l2 h =>
      walk_parent_before (sizeOf keys) keys le_rfl fp dp l1 r l2 h, ?_⟩
  intro t1 t2 hU hEP td fp dp
  cases hEP with
  | canvas => rfl
  | other => rfl
  | dir ks1 mid ks2 hfk hperm =>
    exact walk_enum_perm (sizeOf ks1) ks1 le_rfl ks2 hU
      (EnumPerm.dir ks1 mid ks2 hfk hperm) td fp dp

/-- Witness for C3: the determinism part applied to a concrete
unique-named hierarchy and a reordering of it. -/
theorem walk_order_amended_witness :
    (walkObj true "f.root".toList []
        (RObj.tdir [("a".toList, RObj.tcanvas), ("b".toList, RObj.tdir [])])).map
          projWRec =
      (walkObj true "f.root".toList []
          (RObj.tdir [("b".toList, RObj.tdir []), ("a".toList, RObj.tcanvas)])).map
        projWRec := by
  apply walk_order_amended.2.2
  · refine UniqueNames.dir _ (by decide) ?_
    intro n o hm
    rcases List.mem_cons.1 hm with heq | hm2
    · cases heq
      exact UniqueNames.canvas
    · rcases List.mem_cons.1 hm2 with heq | hm3
      · cases heq
        exact UniqueNames.dir [] (by simp) (fun n o hm4 => by simp at hm4)
      · simp at hm3
  · refine EnumPerm.dir _
      [("a".toList, RObj.tcanvas), ("b".toList, RObj.tdir [])] _ ?_ ?_
    · exact EnumPermKeys.cons "a".toList RObj.tcanvas RObj.tcanvas _ _
        EnumPerm.canvas
        (EnumPermKeys.cons "b".toList (RObj.tdir []) (RObj.tdir []) [] []
          (EnumPerm.dir [] [] [] EnumPermKeys.nil (List.Perm.nil))
          EnumPermKeys.nil)
    · exact List.Perm.swap ("b".toList, RObj.tdir []) ("a".toList, RObj.tcanvas) []

/-! ### Group visitation (C8) -/

theorem collectE_ok {a b : Type} (l : List a) (f : a → Except PyError (List b))
    (g : a → List b) (h : ∀ x ∈ l, f x = Except.ok (g x)) :
    collectE l f = Except.ok (l.flatMap g) := by
  induction l with
  | nil => simp [collectE]
  | cons x xs ih =>
    have hx := h x (List.mem_cons_self x xs)
    have ih2 := ih (fun y hy => h y (List.mem_cons_of_mem x hy))
    simp [collectE, hx, ih2]

theorem subGroupPathsKeys_nil (dp : Str) : subGroupPathsKeys dp [] = [] := by
  rw [subGroupPathsKeys]

theorem subGroupPathsKeys_cons (dp n : Str) (o : RObj) (rest : List (Str × RObj)) :
    subGroupPathsKeys dp ((n, o) :: rest) =
      subGroupPathsObj dp n o ++ subGroupPathsKeys dp rest := by
  rw [subGroupPathsKeys]

theorem subGroupPathsObj_dir (dp n : Str) (ks : List (Str × RObj)) :
    subGroupPathsObj dp n (RObj.tdir ks) =
      rootChildPath dp n :: subGroupPathsKeys (rootChildPath dp n) ks := by
  rw [subGroupPathsObj]

theorem subGroupPathsObj_canvas (dp n : Str) :
    subGroupPathsObj dp n RObj.tcanvas = [] := by
  rw [subGroupPathsObj]
  intro ks h
  cases h

theorem subGroupPathsObj_other (dp n : Str) :
    subGroupPathsObj dp n RObj.otherObj = [] := by
  rw [subGroupPathsObj]
  intro ks h
  cases h

theorem mem_subGroupPathsKeys : ∀ (keys : List (Str × RObj)) (dp p : Str),
    p ∈ subGroupPathsKeys dp keys ↔
      ∃ n ks, (n, RObj.tdir ks) ∈ keys ∧
        (p = rootChildPath dp n ∨ p ∈ subGroupPathsKeys (rootChildPath dp n) ks) := by
  intro keys
  induction keys with
  | nil =>
    intro dp p
    rw [subGroupPathsKeys_nil]
    simp
  | cons e rest ih =>
    intro dp p
    obtain ⟨n, o⟩ := e
    rw [subGroupPathsKeys_cons, List.mem_append, ih]
    constructor
    · rintro (h | ⟨n2, ks2, hmem, hp⟩)
      · cases o with
        | tdir ks =>
          rw [subGroupPathsObj_dir] at h
          rcases List.mem_cons.1 h with rfl | h2
          · exact ⟨n, ks, List.mem_cons_self _ _, Or.inl rfl⟩
          · exact ⟨n, ks, List.mem_cons_self _ _, Or.inr h2⟩
        | tcanvas => rw [subGroupPathsObj_canvas] at h; cases h
        | otherObj => rw [subGroupPathsObj_other] at h; cases h
      · exact ⟨n2, ks2, List.mem_cons_of_mem _ hmem, hp⟩
    · rintro ⟨n2, ks2, hmem, hp⟩
      rcases List.mem_cons.1 hmem with heq | hmem2
      · cases heq
        left
        rw [subGroupPathsObj_dir]
        rcases hp with rfl | hp2
        · exact List.mem_cons_self _ _
        · exact List.mem_cons_of_mem _ hp2
      · exact Or.inr ⟨n2, ks2, hmem2, hp⟩

theorem walk_visits_groups : ∀ (N : Nat) (keys : List (Str × RObj)),
    sizeOf keys ≤ N → UniqueNames (RObj.tdir keys) →
    ∀ (fname dp p : Str),
      p ∈ allGroupPaths dp keys ↔
        ∃ r ∈ walkDir true fname dp keys, r.dirPart = p := by
  intro N
  induction N with
  | zero =>
    intro keys hN
    have : 0 < sizeOf keys := by cases keys <;> simp
    omega
  | succ N ih =>
    intro keys hN hU fname dp p
    have hnd := UniqueNames_nodup hU
    constructor
    · intro hp
      rcases List.mem_cons.1 hp with rfl | hp2
      · exact ⟨WRec.mk fname p (dnsOf keys) (fnsOf keys) keys,
          mem_walkDir.2 (Or.inl rfl), rfl⟩
      · obtain ⟨n, ks, hmem, hsub⟩ := (mem_subGroupPathsKeys keys dp p).1 hp2
        have hg : getKey keys n = some (RObj.tdir ks) := getKey_of_mem_nodup hnd hmem
        have hdn : n ∈ dnsOf keys := by
          rw [mem_dnsOf]
          exact ⟨List.mem_map.2 ⟨(n, RObj.tdir ks), hmem, rfl⟩,
            by unfold isDirKey; rw [hg]⟩
        have hU2 : UniqueNames (RObj.tdir ks) := UniqueNames_child hU hmem
        have hsz : sizeOf ks ≤ N := by
          have := getKey_sizeOf hg
          simp at this
          omega
        have hall : p ∈ allGroupPaths (rootChildPath dp n) ks := by
          rcases hsub with rfl | hsub2
          · exact List.mem_cons_self _ _
          · exact List.mem_cons_of_mem _ hsub2
        obtain ⟨r, hr, hrp⟩ := (ih ks hsz hU2 fname (rootChildPath dp n) p).1 hall
        exact ⟨r, mem_walkDir.2 (Or.inr ⟨n, hdn, ks, hg, hr⟩), hrp⟩
    · rintro ⟨r, hr, hrp⟩
      rcases mem_walkDir.1 hr with rfl | ⟨dn, hdn, ks, hg, hr2⟩
      · rw [← hrp]
        exact List.mem_cons_self _ _
      · have hU2 : UniqueNames (RObj.tdir ks) := UniqueNames_child hU (getKey_mem hg)
        have hsz : sizeOf ks ≤ N := by
          have := getKey_sizeOf hg
          simp at this
          omega
        have hall := (ih ks hsz hU2 fname (rootChildPath dp dn) p).2 ⟨r, hr2, hrp⟩
        apply List.mem_cons_of_mem
        apply (mem_subGroupPathsKeys keys dp p).2
        refine ⟨dn, ks, getKey_mem hg, ?_⟩
        rcases List.mem_cons.1 hall with rfl | h2
        · exact Or.inl rfl
        · exact Or.inr h2

theorem collectE_total {a b : Type} (l : List a) (f : a → Except PyError (List b))
    (h : ∀ x ∈ l, ∃ bs, f x = Except.ok bs) :
    ∃ out, collectE l f = Except.ok out := by
  induction l with
  | nil => exact ⟨[], rfl⟩
  | cons x xs ih =>
    obtain ⟨bs, hbs⟩ := h x (List.mem_cons_self x xs)
    obtain ⟨rest, hrest⟩ := ih (fun y hy => h y (List.mem_cons_of_mem x hy))
    exact ⟨bs ++ rest, by simp [collectE, hbs, hrest]⟩

theorem dispatchKey_valid (d dp : Str) (keys : List (Str × RObj)) (praw : Str)
    (pre : RegularExpression Char) (key : Str) :
    dispatchKey d dp keys praw (some pre) key =
      Except.ok (dispatchPure d dp keys praw pre key) := by
  unfold dispatchKey dispatchPure filterEval
  cases hg : getKey keys key with
  | none => simp
  | some o =>
    cases o with
    | tdir ks => simp
    | otherObj => simp
    | tcanvas =>
      by_cases hp : praw = []
      · simp [hp]
      · simp only [hp, if_false]
        cases hm : reMatchPy pre (pathJoin dp key) <;> simp [hm, hp]

theorem write_root_file_valid (d f : Str) (keys : List (Str × RObj)) (praw : Str)
    (pre : RegularExpression Char) :
    write_root_file d f keys praw (some pre) =
      Except.ok (wrfOut d f keys praw pre, (wrfOut d f keys praw pre).length) := by
  unfold write_root_file wrfOut
  rw [collectE_ok _ _
    (fun r => r.filenames.flatMap (dispatchPure d r.dirPart r.tdirKeys praw pre))
    (fun r _ => collectE_ok _ _ _
      (fun k _ => dispatchKey_valid d r.dirPart r.tdirKeys praw pre k))]

/-- Claim C8 counterexample: a hierarchy (legal under the spec's
independent-namespace data model) in which the group `"a"` is shadowed
by a sibling object of the same name: the group is in the hierarchy but
the walker never visits it, because `Get("a")` resolves to the object
and `"a"` is therefore classified as a filename. -/
theorem walk_misses_shadowed_group :
    "a".toList ∈ allGroupPaths []
        [("a".toList, RObj.tcanvas), ("a".toList, RObj.tdir [])] ∧
    ¬ ∃ r ∈ walkDir true "f.root".toList []
        [("a".toList, RObj.tcanvas), ("a".toList, RObj.tdir [])],
      r.dirPart = "a".toList := by
  constructor
  · rw [allGroupPaths, subGroupPathsKeys_cons, subGroupPathsKeys_cons,
      subGroupPathsObj_canvas, subGroupPathsObj_dir, subGroupPathsKeys_nil]
    simp [rootChildPath]
  · rintro ⟨r, hr, hp⟩
    simp [walkDir, walkChildren, dnsOf, fnsOf, sortStr, insStr, strLe, getKey,
      isDirKey, rootChildPath] at hr
    rw [hr] at hp
    simp at hp

/-- Claim C8, amended: for hierarchies with unique sibling key names
(shared between the group and object namespaces), the walker visits
exactly the groups of the hierarchy -- the visited set is independent of
any filter pattern, since filtering is applied only to leaf objects
inside `write_root_file` and never appears in `walk`; moreover a run
with a parsable pattern never fails, even when nothing matches
(`plotCount` is simply the number of dispatched outputs). -/
theorem walk_visits_every_group_amended :
    (∀ (fname : Str) (keys : List (Str × RObj)), UniqueNames (RObj.tdir keys) →
      ∀ dp p : Str, p ∈ allGroupPaths dp keys ↔
        ∃ r ∈ walkDir true fname dp keys, r.dirPart = p) ∧
    (∀ (dirname fname : Str) (keys : List (Str × RObj)) (praw : Str)
        (pre : RegularExpression Char),
      ∃ out : List Str,
        write_root_file dirname fname keys praw (some pre) =
          Except.ok (out, out.length)) := by
  constructor
  · intro fname keys hU dp p
    exact walk_visits_groups (sizeOf keys) keys le_rfl hU fname dp p
  · intro dirname fname keys praw pre
    exact ⟨wrfOut dirname fname keys praw pre, write_root_file_valid _ _ _ _ _⟩

/-- Witness for C8: in a concrete unique-named hierarchy the group
`"g"` is visited by the walk. -/
theorem walk_visits_every_group_amended_witness :
    ∃ r ∈ walkDir true "f.root".toList [] [("g".toList, RObj.tdir [])],
      r.dirPart = "g".toList := by
  refine (walk_visits_every_group_amended.1 "f.root".toList
    [("g".toList, RObj.tdir [])] ?_ [] "g".toList).1 ?_
  · refine UniqueNames.dir _ (by decide) ?_
    intro n o hm
    rcases List.mem_cons.1 hm with heq | hm2
    · cases heq
      exact UniqueNames.dir [] (by simp) (fun n o hm3 => by simp at hm3)
    · simp at hm2
  · rw [allGroupPaths, subGroupPathsKeys_cons, subGroupPathsObj_dir,
      subGroupPathsKeys_nil]
    simp [rootChildPath]

/-! ### Invalid-pattern behavior (C6) -/

theorem collectE_guard {a b : Type} (l : List a) (f : a → Except PyError (List b))
    (p : a → Bool) (err : PyError)
    (h : ∀ x ∈ l, f x = if p x then Except.error err else Except.ok []) :
    collectE l f = if l.any p then Except.error err else Except.ok [] := by
  induction l with
  | nil => simp [collectE]
  | cons x xs ih =>
    have hx := h x (List.mem_cons_self x xs)
    have ih2 := ih (fun y hy => h y (List.mem_cons_of_mem x hy))
    by_cases hp : p x = true
    · simp [collectE, hx, hp]
    · have hp2 : p x = false := by
        cases hpx : p x
        · rfl
        · exact absurd hpx hp
      by_cases hq : xs.any p = true
      · simp [collectE, hx, hp2, ih2, hq]
      · have hq2 : xs.any p = false := by
          cases hqx : xs.any p
          · rfl
          · exact absurd hqx hq
        simp [collectE, hx, hp2, ih2, hq2]

theorem dispatchKey_invalid {praw : Str} (hp : praw ≠ []) (d dp : Str)
    (keys : List (Str × RObj)) (key : Str) :
    dispatchKey d dp keys praw none key =
      if isCanvasKey keys key then Except.error PyError.reError else Except.ok [] := by
  unfold dispatchKey isCanvasKey
  cases hg : getKey keys key with
  | none => simp
  | some o =>
    cases o with
    | tdir ks => simp
    | tcanvas => simp [filterEval, hp]
    | otherObj => simp

theorem write_root_file_invalid {praw : Str} (hp : praw ≠ []) (d f : Str)
    (keys : List (Str × RObj)) :
    write_root_file d f keys praw none =
      if walkHasCanvas f keys then Except.error PyError.reError
      else Except.ok ([], 0) := by
  unfold write_root_file walkHasCanvas
  have houter : collectE (walkDir true f [] keys)
      (fun r => collectE r.filenames (dispatchKey d r.dirPart r.tdirKeys praw none)) =
      if (walkDir true f [] keys).any
          (fun r => r.filenames.any (fun k => isCanvasKey r.tdirKeys k)) then
        Except.error PyError.reError
      else Except.ok [] := by
    apply collectE_guard
    intro r _
    apply collectE_guard
    intro k _
    exact dispatchKey_invalid hp d r.dirPart r.tdirKeys k
  rw [houter]
  by_cases hq : (walkDir true f [] keys).any
      (fun r => r.filenames.any (fun k => isCanvasKey r.tdirKeys k)) = true
  · simp [hq]
  · have hq2 : (walkDir true f [] keys).any
        (fun r => r.filenames.any (fun k => isCanvasKey r.tdirKeys k)) = false := by
      cases hqx : (walkDir true f [] keys).any
          (fun r => r.filenames.any (fun k => isCanvasKey r.tdirKeys k))
      · rfl
      · exact absurd hqx hq
    simp [hq2]

/-- Claim C6 counterexample: with the syntactically invalid pattern `"["`
and an input file containing a group and a non-drawable object but no
canvas, `write_root_file` completes successfully -- the invalid pattern
is not surfaced before (or even during) traversal, contradicting the
claim that the run fails up front. -/
theorem invalid_pattern_not_upfront :
    write_root_file "out".toList "f.root".toList
      [("a".toList, RObj.tdir []), ("t".toList, RObj.otherObj)] "[".toList none =
      Except.ok ([], 0) := by
  rw [write_root_file_invalid (by decide)]
  have hnc : walkHasCanvas "f.root".toList
      [("a".toList, RObj.tdir []), ("t".toList, RObj.otherObj)] = false := by
    simp [walkHasCanvas, walkDir, walkChildren, dnsOf, fnsOf, sortStr, insStr,
      strLe, getKey, isDirKey, isCanvasKey, rootChildPath]
  rw [hnc]
  simp

/-- Claim C6, amended: a syntactically invalid filter pattern is not
validated up front; the `re.error` surfaces lazily, exactly when the
traversal reaches the first drawable (canvas) candidate, and a run whose
traversal reaches no canvas completes successfully with zero plots. -/
theorem invalid_pattern_lazy (d f : Str) (keys : List (Str × RObj)) (praw : Str)
    (hp : praw ≠ []) :
    (write_root_file d f keys praw none = Except.error PyError.reError ↔
      walkHasCanvas f keys = true) ∧
    (walkHasCanvas f keys = false →
      write_root_file d f keys praw none = Except.ok ([], 0)) := by
  rw [write_root_file_invalid hp]
  by_cases hq : walkHasCanvas f keys = true
  · simp [hq]
  · have hq2 : walkHasCanvas f keys = false := by
      cases hqx : walkHasCanvas f keys
      · rfl
      · exact absurd hqx hq
    simp [hq2]

/-- Witness for C6: with an invalid pattern, a file whose traversal
reaches a canvas raises `re.error` (during traversal, at that canvas). -/
theorem invalid_pattern_lazy_witness :
    write_root_file "out".toList "f.root".toList [("a".toList, RObj.tcanvas)]
      "[".toList none = Except.error PyError.reError := by
  refine (invalid_pattern_lazy "out".toList "f.root".toList
    [("a".toList, RObj.tcanvas)] "[".toList (by decide)).1.2 ?_
  simp [walkHasCanvas, walkDir, walkChildren, dnsOf, fnsOf, sortStr, insStr,
    strLe, getKey, isDirKey, isCanvasKey, rootChildPath]

/-! ### Canvas rendering effects (C9) -/

theorem canvasEps_ne_canvasPng (bp : Str) : canvasEps bp ≠ canvasPng bp := by
  intro h
  have := List.append_cancel_left h
  simp at this

/-- Claim C9: for every accepted object, `write_canvas` first
materializes the parent directory of the output base path and then
requests exactly one render artifact, the vector image at
`basepath ++ ".eps"`; the raster path `basepath ++ ".png"` is derived
(`canvasPng`) but never requested. -/
theorem write_canvas_claim :
    ∀ fs bp, ∃ fs',
      write_canvas fs bp =
        Except.ok (fs', [Ev.ensureDir bp, Ev.render (canvasEps bp)]) ∧
      (countSlash bp ≠ 0 → dirnameOf bp ∈ fs') ∧
      ([Ev.ensureDir bp, Ev.render (canvasEps bp)].filter
          (fun e => match e with | Ev.render _ => true | _ => false)) =
        [Ev.render (canvasEps bp)] ∧
      Ev.render (canvasPng bp) ∉ [Ev.ensureDir bp, Ev.render (canvasEps bp)] := by
  intro fs bp
  obtain ⟨fs', heq, _, hdir, _, _⟩ := make_dir_if_needed_ok fs bp
  refine ⟨fs', ?_, hdir, by simp, ?_⟩
  · simp [write_canvas, heq]
  · simp only [List.mem_cons, List.not_mem_nil]
    rintro (h | h | h)
    · cases h
    · exact canvasEps_ne_canvasPng bp (by injection h with h2; exact h2.symm)
    · cases h

/-- Witness for C9: the effect trace at a concrete base path. -/
theorem write_canvas_claim_witness :
    ∃ fs', write_canvas [] "out/h1".toList =
        Except.ok (fs', [Ev.ensureDir "out/h1".toList,
          Ev.render (canvasEps "out/h1".toList)]) ∧
      (countSlash "out/h1".toList ≠ 0 → dirnameOf "out/h1".toList ∈ fs') ∧
      ([Ev.ensureDir "out/h1".toList, Ev.render (canvasEps "out/h1".toList)].filter
          (fun e => match e with | Ev.render _ => true | _ => false)) =
        [Ev.render (canvasEps "out/h1".toList)] ∧
      Ev.render (canvasPng "out/h1".toList) ∉
        [Ev.ensureDir "out/h1".toList, Ev.render (canvasEps "out/h1".toList)] :=
  write_canvas_claim [] "out/h1".toList

/-! ### Dispatched outputs versus the specified set (C1) -/

theorem flatMap_congr {a b : Type} {l : List a} {f g : a → List b}
    (h : ∀ x ∈ l, f x = g x) : l.flatMap f = l.flatMap g := by
  induction l with
  | nil => rfl
  | cons x xs ih =>
    rw [List.flatMap_cons, List.flatMap_cons, h x (List.mem_cons_self x xs),
      ih (fun y hy => h y (List.mem_cons_of_mem x hy))]

theorem codeOutKeys_nil (d praw : Str) (pre : RegularExpression Char) (dp : Str) :
    codeOutKeys d praw pre dp [] = [] := by
  rw [codeOutKeys]

theorem codeOutKeys_cons (d praw : Str) (pre : RegularExpression Char) (dp n : Str)
    (o : RObj) (rest : List (Str × RObj)) :
    codeOutKeys d praw pre dp ((n, o) :: rest) =
      codeOutObj d praw pre dp n o ++ codeOutKeys d praw pre dp rest := by
  rw [codeOutKeys]

theorem codeOutObj_canvas (d praw : Str) (pre : RegularExpression Char) (dp n : Str) :
    codeOutObj d praw pre dp n RObj.tcanvas =
      (if praw = [] ∨ reMatchPy pre (pathJoin dp n) = true then
        [pathJoin d (pathJoin dp n)]
      else []) := by
  rw [codeOutObj]

theorem codeOutObj_dir (d praw : Str) (pre : RegularExpression Char) (dp n : Str)
    (ks : List (Str × RObj)) :
    codeOutObj d praw pre dp n (RObj.tdir ks) =
      codeOutKeys d praw pre (rootChildPath dp n) ks := by
  rw [codeOutObj]

theorem codeOutObj_other (d praw : Str) (pre : RegularExpression Char) (dp n : Str) :
    codeOutObj d praw pre dp n RObj.otherObj = [] := by
  rw [codeOutObj]

theorem codeOutKeys_eq_flatMap (d praw : Str) (pre : RegularExpression Char)
    (dp : Str) (keys : List (Str × RObj)) :
    codeOutKeys d praw pre dp keys =
      keys.flatMap (fun e => codeOutObj d praw pre dp e.1 e.2) := by
  induction keys with
  | nil => rw [codeOutKeys_nil, List.flatMap_nil]
  | cons e rest ih =>
    obtain ⟨n, o⟩ := e
    rw [codeOutKeys_cons, List.flatMap_cons, ih]

theorem specFullPathsKeys_nil (dp : Str) : specFullPathsKeys dp [] = [] := by
  rw [specFullPathsKeys]

theorem specFullPathsKeys_cons (dp n : Str) (o : RObj) (rest : List (Str × RObj)) :
    specFullPathsKeys dp ((n, o) :: rest) =
      specFullPathsObj dp n o ++ specFullPathsKeys dp rest := by
  rw [specFullPathsKeys]

theorem specFullPathsObj_canvas (dp n : Str) :
    specFullPathsObj dp n RObj.tcanvas = [rootChildPath dp n] := by
  rw [specFullPathsObj]

theorem specFullPathsObj_dir (dp n : Str) (ks : List (Str × RObj)) :
    specFullPathsObj dp n (RObj.tdir ks) =
      specFullPathsKeys (rootChildPath dp n) ks := by
  rw [specFullPathsObj]

theorem specFullPathsObj_other (dp n : Str) :
    specFullPathsObj dp n RObj.otherObj = [] := by
  rw [specFullPathsObj]

theorem isDirKey_entry {keys : List (Str × RObj)} (hnd : (keys.map Prod.fst).Nodup)
    {n : Str} {o : RObj} (hmem : (n, o) ∈ keys) :
    isDirKey keys n = isDirObj o := by
  unfold isDirKey
  rw [getKey_of_mem_nodup hnd hmem]
  cases o <;> rfl

theorem dispatchPure_eq_codeOutObj {keys : List (Str × RObj)}
    (hnd : (keys.map Prod.fst).Nodup) {n : Str} {o : RObj} (hmem : (n, o) ∈ keys)
    (hno : isDirObj o = false) (d dp praw : Str) (pre : RegularExpression Char) :
    dispatchPure d dp keys praw pre n = codeOutObj d praw pre dp n o := by
  unfold dispatchPure
  rw [getKey_of_mem_nodup hnd hmem]
  cases o with
  | tcanvas => rw [codeOutObj_canvas]
  | otherObj => rw [codeOutObj_other]
  | tdir ks => simp [isDirObj] at hno

theorem walk_flat_perm : ∀ (N : Nat) (keys : List (Str × RObj)), sizeOf keys ≤ N →
    UniqueNames (RObj.tdir keys) →
    ∀ (d f dp praw : Str) (pre : RegularExpression Char),
      ((walkDir true f dp keys).flatMap
          (fun r => r.filenames.flatMap
            (dispatchPure d r.dirPart r.tdirKeys praw pre))).Perm
        (codeOutKeys d praw pre dp keys) := by
  intro N
  induction N with
  | zero =>
    intro keys hN
    have : 0 < sizeOf keys := by cases keys <;> simp
    omega
  | succ N ih =>
    intro keys hN hU d f dp praw pre
    have hnd := UniqueNames_nodup hU
    rw [walkDir_true_eq, List.flatMap_cons]
    have hA : ((WRec.mk f dp (dnsOf keys) (fnsOf keys) keys).filenames.flatMap
        (dispatchPure d (WRec.mk f dp (dnsOf keys) (fnsOf keys) keys).dirPart
          (WRec.mk f dp (dnsOf keys) (fnsOf keys) keys).tdirKeys praw pre)).Perm
        ((keys.filter (fun e => !isDirObj e.2)).flatMap
          (fun e => codeOutObj d praw pre dp e.1 e.2)) := by
      show ((fnsOf keys).flatMap (dispatchPure d dp keys praw pre)).Perm _
      have h1 : (fnsOf keys).Perm
          ((keys.map Prod.fst).filter (fun n2 => !isDirKey keys n2)) := sortStr_perm _
      refine (h1.flatMap_right _).trans ?_
      have h2 : (keys.map Prod.fst).filter (fun n2 => !isDirKey keys n2) =
          (keys.filter (fun e => !isDirKey keys e.1)).map Prod.fst := by
        rw [List.filter_map]
        rfl
      rw [h2, List.flatMap_map]
      have h3 : keys.filter (fun e => !isDirKey keys e.1) =
          keys.filter (fun e => !isDirObj e.2) :=
        List.filter_congr (fun e he => by
          obtain ⟨n, o⟩ := e
          rw [isDirKey_entry hnd he])
      rw [h3]
      have h4 : (keys.filter (fun e => !isDirObj e.2)).flatMap
          (fun e => dispatchPure d dp keys praw pre e.1) =
          (keys.filter (fun e => !isDirObj e.2)).flatMap
            (fun e => codeOutObj d praw pre dp e.1 e.2) :=
        flatMap_congr (fun e he => by
          obtain ⟨n, o⟩ := e
          have hmem : (n, o) ∈ keys := (List.mem_filter.1 he).1
          have hno : isDirObj o = false := by
            have := (List.mem_filter.1 he).2
            simpa using this
          exact dispatchPure_eq_codeOutObj hnd hmem hno d dp praw pre)
      rw [h4]
    have hB : ((walkChildren true f dp keys (dnsOf keys)).flatMap
        (fun r => r.filenames.flatMap
          (dispatchPure d r.dirPart r.tdirKeys praw pre))).Perm
        ((keys.filter (fun e => isDirObj e.2)).flatMap
          (fun e => codeOutObj d praw pre dp e.1 e.2)) := by
      rw [walkChildren_eq_flatMap, List.flatMap_assoc]
      have h1 : ∀ dn ∈ dnsOf keys,
          ((childWalk true f dp keys dn).flatMap
            (fun r => r.filenames.flatMap
              (dispatchPure d r.dirPart r.tdirKeys praw pre))).Perm
          (match getKey keys dn with
           | some (RObj.tdir ks) => codeOutKeys d praw pre (rootChildPath dp dn) ks
           | _ => []) := by
        intro dn hdn
        have hdir : isDirKey keys dn = true := (mem_dnsOf.1 hdn).2
        unfold isDirKey at hdir
        cases hg : getKey keys dn with
        | none =>
          rw [hg] at hdir
          simp at hdir
        | some o =>
          cases o with
          | tdir ks =>
            rw [childWalk_dir hg]
            have hU2 := UniqueNames_child hU (getKey_mem hg)
            have hsz : sizeOf ks ≤ N := by
              have := getKey_sizeOf hg
              simp at this
              omega
            exact ih ks hsz hU2 d f (rootChildPath dp dn) praw pre
          | tcanvas =>
            rw [hg] at hdir
            simp at hdir
          | otherObj =>
            rw [hg] at hdir
            simp at hdir
      refine (List.Perm.flatMap_left _ h1).trans ?_
      have h2 : (dnsOf keys).Perm
          ((keys.map Prod.fst).filter (fun n2 => isDirKey keys n2)) := sortStr_perm _
      refine (h2.flatMap_right _).trans ?_
      have h3 : (keys.map Prod.fst).filter (fun n2 => isDirKey keys n2) =
          (keys.filter (fun e => isDirKey keys e.1)).map Prod.fst := by
        rw [List.filter_map]
        rfl
      rw [h3, List.flatMap_map]
      have h4 : keys.filter (fun e => isDirKey keys e.1) =
          keys.filter (fun e => isDirObj e.2) :=
        List.filter_congr (fun e he => by
          obtain ⟨n, o⟩ := e
          rw [isDirKey_entry hnd he])
      rw [h4]
      have h5 : (keys.filter (fun e => isDirObj e.2)).flatMap
          (fun e => (match getKey keys e.1 with
            | some (RObj.tdir ks) => codeOutKeys d praw pre (rootChildPath dp e.1) ks
            | _ => [])) =
          (keys.filter (fun e => isDirObj e.2)).flatMap
            (fun e => codeOutObj d praw pre dp e.1 e.2) :=
        flatMap_congr (fun e he => by
          obtain ⟨n, o⟩ := e
          have hmem : (n, o) ∈ keys := (List.mem_filter.1 he).1
          have hdo : isDirObj o = true := (List.mem_filter.1 he).2
          cases o with
          | tdir ks =>
            rw [getKey_of_mem_nodup hnd hmem, codeOutObj_dir]
          | tcanvas => simp [isDirObj] at hdo
          | otherObj => simp [isDirObj] at hdo)
      rw [h5]
    refine (hA.append hB).trans ?_
    rw [← List.flatMap_append]
    have h6 : ((keys.filter (fun e => !isDirObj e.2)) ++
        (keys.filter (fun e => isDirObj e.2))).Perm keys := by
      have hp := List.filter_append_perm (fun e : Str × RObj => !isDirObj e.2) keys
      have heq : keys.filter (fun e : Str × RObj => !(!isDirObj e.2)) =
          keys.filter (fun e => isDirObj e.2) :=
        List.filter_congr (fun e _ => by simp)
      rw [heq] at hp
      exact hp
    refine (h6.flatMap_right _).trans ?_
    rw [codeOutKeys_eq_flatMap]

theorem GoodNames_entry {keys : List (Str × RObj)} (h : GoodNames (RObj.tdir keys))
    {n : Str} {o : RObj} (hm : (n, o) ∈ keys) :
    n ≠ [] ∧ '/' ∉ n ∧ GoodNames o := by
  cases h with
  | dir _ h1 h2 h3 => exact ⟨h1 n o hm, h2 n o hm, h3 n o hm⟩

theorem GoodNames_tail {e : Str × RObj} {keys : List (Str × RObj)}
    (h : GoodNames (RObj.tdir (e :: keys))) : GoodNames (RObj.tdir keys) := by
  cases h with
  | dir _ h1 h2 h3 =>
    exact GoodNames.dir keys (fun n o hm => h1 n o (List.mem_cons_of_mem e hm))
      (fun n o hm => h2 n o (List.mem_cons_of_mem e hm))
      (fun n o hm => h3 n o (List.mem_cons_of_mem e hm))

theorem UniqueNames_tail {e : Str × RObj} {keys : List (Str × RObj)}
    (h : UniqueNames (RObj.tdir (e :: keys))) : UniqueNames (RObj.tdir keys) := by
  cases h with
  | dir _ hnd hch =>
    refine UniqueNames.dir keys ?_ (fun n o hm => hch n o (List.mem_cons_of_mem e hm))
    rw [List.map_cons, List.nodup_cons] at hnd
    exact hnd.2

theorem GoodDirPath_nil : GoodDirPath [] := by
  intro c hc
  simp at hc

theorem GoodDirPath_child {dp n : Str} (hdp : GoodDirPath dp) (hn1 : n ≠ [])
    (hn2 : '/' ∉ n) : GoodDirPath (rootChildPath dp n) := by
  have hlast : ∀ c, n.getLast? = some c → c ≠ '/' := by
    intro c hc heq
    subst heq
    exact hn2 (List.mem_of_getLast?_eq_some hc)
  intro c hc
  unfold rootChildPath at hc
  split at hc
  · exact hlast c hc
  · rw [List.getLast?_append] at hc
    obtain ⟨a, ha⟩ := Option.isSome_iff_exists.1 (List.getLast?_isSome.2 hn1)
    have hne : ('/' :: n).getLast? = n.getLast? := by
      cases n with
      | nil => exact absurd rfl hn1
      | cons m ms => rw [List.getLast?_cons_cons]
    rw [hne, ha] at hc
    simp at hc
    rw [← hc]
    exact hlast a ha

theorem pathJoin_eq_rootChild {dp n : Str} (hn1 : n ≠ []) (hn2 : '/' ∉ n)
    (hdp : GoodDirPath dp) : pathJoin dp n = rootChildPath dp n := by
  unfold pathJoin rootChildPath
  have hh : ¬ n.head? = some '/' := by
    cases n with
    | nil => simp
    | cons c cs =>
      simp only [List.head?_cons]
      intro h
      injection h with h2
      exact hn2 (h2 ▸ List.mem_cons_self c cs)
  rw [if_neg hh]
  by_cases hdpe : dp = []
  · subst hdpe
    simp
  · have hlast : ¬ dp.getLast? = some '/' := fun h => hdp '/' h rfl
    rw [if_neg (by
      rintro (h | h)
      · exact hdpe h
      · exact hlast h), if_neg hdpe]

theorem codeOut_eq_spec : ∀ (N : Nat) (keys : List (Str × RObj)), sizeOf keys ≤ N →
    GoodNames (RObj.tdir keys) →
    ∀ (d dp praw : Str) (pre : RegularExpression Char), GoodDirPath dp →
      codeOutKeys d praw pre dp keys =
        ((specFullPathsKeys dp keys).filter
            (fun p => praw = [] || reMatchPy pre p)).map (fun p => pathJoin d p) := by
  intro N
  induction N with
  | zero =>
    intro keys hN
    have : 0 < sizeOf keys := by cases keys <;> simp
    omega
  | succ N ih =>
    intro keys hN hG d dp praw pre hdp
    cases keys with
    | nil =>
      rw [codeOutKeys_nil, specFullPathsKeys_nil]
      rfl
    | cons e rest =>
      obtain ⟨n, o⟩ := e
      rw [codeOutKeys_cons, specFullPathsKeys_cons, List.filter_append,
        List.map_append]
      have hszr : sizeOf rest ≤ N := by
        simp at hN
        omega
      rw [ih rest hszr (GoodNames_tail hG) d dp praw pre hdp]
      congr 1
      obtain ⟨hn1, hn2, hGo⟩ := GoodNames_entry hG (List.mem_cons_self _ _)
      cases o with
      | tcanvas =>
        rw [codeOutObj_canvas, specFullPathsObj_canvas,
          pathJoin_eq_rootChild hn1 hn2 hdp]
        by_cases hpe : praw = []
        · simp [hpe]
        · cases hm : reMatchPy pre (rootChildPath dp n) <;> simp [hpe, hm]
      | otherObj =>
        rw [codeOutObj_other, specFullPathsObj_other]
        rfl
      | tdir ks =>
        rw [codeOutObj_dir, specFullPathsObj_dir]
        have hszk : sizeOf ks ≤ N := by
          simp at hN
          omega
        exact ih ks hszk hGo d (rootChildPath dp n) praw pre
          (GoodDirPath_child hdp hn1 hn2)

theorem rootChildPath_assoc {dp n s : Str} (hn : n ≠ []) :
    rootChildPath (rootChildPath dp n) s = rootChildPath dp (n ++ '/' :: s) := by
  unfold rootChildPath
  by_cases hdp : dp = []
  · simp [hdp, hn]
  · have h2 : dp ++ '/' :: n ≠ [] := by simp
    simp [hdp, h2, List.append_assoc]

theorem rootChildPath_inj {dp a b : Str}
    (h : rootChildPath dp a = rootChildPath dp b) : a = b := by
  unfold rootChildPath at h
  by_cases hdp : dp = []
  · rw [if_pos hdp, if_pos hdp] at h
    exact h
  · rw [if_neg hdp, if_neg hdp] at h
    exact (List.cons.inj (List.append_cancel_left h)).2

theorem seg_eq {n1 n2 t1 t2 : Str} (h1 : '/' ∉ n1) (h2 : '/' ∉ n2)
    (ht1 : t1 = [] ∨ t1.head? = some '/') (ht2 : t2 = [] ∨ t2.head? = some '/')
    (h : n1 ++ t1 = n2 ++ t2) : n1 = n2 ∧ t1 = t2 := by
  rcases List.append_eq_append_iff.1 h with ⟨a2, ha1, ha2⟩ | ⟨c2, hc1, hc2⟩
  · cases a2 with
    | nil =>
      constructor
      · rw [ha1, List.append_nil]
      · rw [ha2, List.nil_append]
    | cons c cs =>
      exfalso
      rcases ht1 with rfl | hh
      · simp at ha2
      · have hc : t1.head? = some c := by
          rw [ha2]
          rfl
        rw [hh] at hc
        injection hc with hc2
        have : '/' ∈ n2 := by
          rw [ha1, hc2]
          exact List.mem_append.2 (Or.inr (List.mem_cons_self _ _))
        exact h2 this
  · cases c2 with
    | nil =>
      constructor
      · rw [hc1, List.append_nil]
      · rw [hc2, List.nil_append]
    | cons c cs =>
      exfalso
      rcases ht2 with rfl | hh
      · simp at hc2
      · have hc : t2.head? = some c := by
          rw [hc2]
          rfl
        rw [hh] at hc
        injection hc with hc3
        have : '/' ∈ n1 := by
          rw [hc1, hc3]
          exact List.mem_append.2 (Or.inr (List.mem_cons_self _ _))
        exact h1 this

theorem specFullPaths_shape : ∀ (N : Nat) (keys : List (Str × RObj)),
    sizeOf keys ≤ N →
    UniqueNames (RObj.tdir keys) → GoodNames (RObj.tdir keys) →
    ∀ dp : Str,
      (specFullPathsKeys dp keys).Nodup ∧
      (∀ p ∈ specFullPathsKeys dp keys, ∃ n o t, (n, o) ∈ keys ∧
        p = rootChildPath dp (n ++ t) ∧ (t = [] ∨ t.head? = some '/')) := by
  intro N
  induction N with
  | zero =>
    intro keys hN
    have : 0 < sizeOf keys := by cases keys <;> simp
    omega
  | succ N ih =>
    intro keys hN hU hG dp
    cases keys with
    | nil =>
      rw [specFullPathsKeys_nil]
      exact ⟨List.nodup_nil, by simp⟩
    | cons e rest =>
      obtain ⟨n, o⟩ := e
      obtain ⟨hn1, hn2, hGo⟩ := GoodNames_entry hG (List.mem_cons_self _ _)
      have hszr : sizeOf rest ≤ N := by
        simp at hN
        omega
      obtain ⟨hndr, hshr⟩ := ih rest hszr (UniqueNames_tail hU) (GoodNames_tail hG) dp
      have hobj : ∀ p ∈ specFullPathsObj dp n o,
          ∃ t, p = rootChildPath dp (n ++ t) ∧ (t = [] ∨ t.head? = some '/') := by
        intro p hp
        cases o with
        | tcanvas =>
          rw [specFullPathsObj_canvas] at hp
          rcases List.mem_singleton.1 hp with rfl
          exact ⟨[], by rw [List.append_nil], Or.inl rfl⟩
        | otherObj =>
          rw [specFullPathsObj_other] at hp
          cases hp
        | tdir ks =>
          rw [specFullPathsObj_dir] at hp
          have hszk : sizeOf ks ≤ N := by
            simp at hN
            omega
          have hUk : UniqueNames (RObj.tdir ks) :=
            UniqueNames_child hU (List.mem_cons_self _ _)
          obtain ⟨-, hshk⟩ := ih ks hszk hUk hGo (rootChildPath dp n)
          obtain ⟨m, o2, t2, hm, hpe, ht2⟩ := hshk p hp
          refine ⟨'/' :: (m ++ t2), ?_, Or.inr rfl⟩
          rw [hpe, rootChildPath_assoc hn1]
      have hobjnd : (specFullPathsObj dp n o).Nodup := by
        cases o with
        | tcanvas =>
          rw [specFullPathsObj_canvas]
          simp
        | otherObj =>
          rw [specFullPathsObj_other]
          exact List.nodup_nil
        | tdir ks =>
          rw [specFullPathsObj_dir]
          have hszk : sizeOf ks ≤ N := by
            simp at hN
            omega
          have hUk : UniqueNames (RObj.tdir ks) :=
            UniqueNames_child hU (List.mem_cons_self _ _)
          exact (ih ks hszk hUk hGo (rootChildPath dp n)).1
      rw [specFullPathsKeys_cons]
      constructor
      · rw [List.nodup_append]
        refine ⟨hobjnd, hndr, ?_⟩
        intro p hp hp2
        obtain ⟨t, hpe, ht⟩ := hobj p hp
        obtain ⟨n2, o2, t2, hm2, hpe2, ht2⟩ := hshr p hp2
        have heq : n ++ t = n2 ++ t2 :=
          rootChildPath_inj (hpe.symm.trans hpe2)
        have hn22 : '/' ∉ n2 :=
          (GoodNames_entry hG (List.mem_cons_of_mem _ hm2)).2.1
        have hseg := seg_eq hn2 hn22 ht ht2 heq
        have hnn : n ∈ rest.map Prod.fst := by
          rw [hseg.1]
          exact List.mem_map.2 ⟨(n2, o2), hm2, rfl⟩
        have hndh := UniqueNames_nodup hU
        rw [List.map_cons, List.nodup_cons] at hndh
        exact hndh.1 hnn
      · intro p hp
        rcases List.mem_append.1 hp with hp | hp
        · obtain ⟨t, hpe, ht⟩ := hobj p hp
          exact ⟨n, o, t, List.mem_cons_self _ _, hpe, ht⟩
        · obtain ⟨n2, o2, t2, hm2, hpe2, ht2⟩ := hshr p hp
          exact ⟨n2, o2, t2, List.mem_cons_of_mem _ hm2, hpe2, ht2⟩

theorem pathJoin_inj_right {d p q : Str} (hp1 : ¬ p.head? = some '/')
    (hq1 : ¬ q.head? = some '/') (h : pathJoin d p = pathJoin d q) : p = q := by
  unfold pathJoin at h
  rw [if_neg hp1, if_neg hq1] at h
  by_cases hd : d = [] ∨ d.getLast? = some '/'
  · rw [if_pos hd, if_pos hd] at h
    exact List.append_cancel_left h
  · rw [if_neg hd, if_neg hd] at h
    exact (List.cons.inj (List.append_cancel_left h)).2

theorem spec_path_head {keys : List (Str × RObj)} (hU : UniqueNames (RObj.tdir keys))
    (hG : GoodNames (RObj.tdir keys)) :
    ∀ p ∈ specFullPathsKeys [] keys, ¬ p.head? = some '/' := by
  intro p hp
  obtain ⟨-, hsh⟩ := specFullPaths_shape (sizeOf keys) keys le_rfl hU hG []
  obtain ⟨n, o, t, hm, hpe, ht⟩ := hsh p hp
  obtain ⟨hn1, hn2, -⟩ := GoodNames_entry hG hm
  rw [hpe]
  unfold rootChildPath
  rw [if_pos rfl]
  cases n with
  | nil => exact absurd rfl hn1
  | cons c cs =>
    rw [List.cons_append, List.head?_cons]
    intro h
    injection h with h2
    exact hn2 (h2 ▸ List.mem_cons_self c cs)

theorem specCanvasList_nodup (d : Str) (keys : List (Str × RObj)) (praw : Str)
    (pre : RegularExpression Char) (hU : UniqueNames (RObj.tdir keys))
    (hG : GoodNames (RObj.tdir keys)) :
    (specCanvasList d keys praw pre).Nodup := by
  unfold specCanvasList
  obtain ⟨hnd, -⟩ := specFullPaths_shape (sizeOf keys) keys le_rfl hU hG []
  refine List.Nodup.map_on ?_ (hnd.filter _)
  intro x hx y hy hxy
  exact pathJoin_inj_right (spec_path_head hU hG x (List.mem_of_mem_filter hx))
    (spec_path_head hU hG y (List.mem_of_mem_filter hy)) hxy

/-- Claim C1 counterexample: in a hierarchy that is legal under the
spec's data model (group names unique among groups, object names among
objects, namespaces independent) a canvas `"a"` and a group `"a"` share
a name; with an empty filter `write_root_file` renders the same canvas
twice (duplicate output base path `out/a`) and never reaches the
specified output `out/a/b`, so the dispatched set neither equals the
specified set nor is duplicate-free. -/
theorem write_dispatch_duplicates :
    write_root_file "out".toList "f.root".toList
      [("a".toList, RObj.tcanvas),
        ("a".toList, RObj.tdir [("b".toList, RObj.tcanvas)])]
      [] (some RegularExpression.zero) =
      Except.ok (["out/a".toList, "out/a".toList], 2) ∧
    ¬ (["out/a".toList, "out/a".toList] : List Str).Nodup ∧
    "out/a/b".toList ∈ specCanvasList "out".toList
      [("a".toList, RObj.tcanvas),
        ("a".toList, RObj.tdir [("b".toList, RObj.tcanvas)])]
      [] RegularExpression.zero ∧
    "out/a/b".toList ∉ (["out/a".toList, "out/a".toList] : List Str) := by
  refine ⟨?_, by decide, ?_, by decide⟩
  · rw [write_root_file_valid]
    have hout : wrfOut "out".toList "f.root".toList
        [("a".toList, RObj.tcanvas),
          ("a".toList, RObj.tdir [("b".toList, RObj.tcanvas)])]
        [] RegularExpression.zero = ["out/a".toList, "out/a".toList] := by
      simp [wrfOut, walkDir, walkChildren, dnsOf, fnsOf, sortStr, insStr, strLe,
        getKey, isDirKey, dispatchPure, pathJoin, rootChildPath]
    rw [hout]
    rfl
  · simp [specCanvasList, specFullPathsKeys, specFullPathsObj, rootChildPath,
      pathJoin]

/-- Claim C1, amended: provided every group's child key names are unique
across the group and object namespaces, nonempty, and free of the `/`
separator, `write_root_file` succeeds, the list of output base paths it
dispatches is a permutation of the spec-derived output paths of the
drawable objects whose full path passes the filter, and that list has no
duplicates (each matching object is rendered exactly once and two
distinct objects always get two distinct output base paths). -/
theorem write_dispatch_set_amended (d f : Str) (keys : List (Str × RObj))
    (praw : Str) (pre : RegularExpression Char)
    (hU : UniqueNames (RObj.tdir keys)) (hG : GoodNames (RObj.tdir keys)) :
    write_root_file d f keys praw (some pre) =
      Except.ok (wrfOut d f keys praw pre, (wrfOut d f keys praw pre).length) ∧
    (wrfOut d f keys praw pre).Perm (specCanvasList d keys praw pre) ∧
    (wrfOut d f keys praw pre).Nodup := by
  have hperm : (wrfOut d f keys praw pre).Perm (specCanvasList d keys praw pre) := by
    unfold wrfOut specCanvasList
    refine (walk_flat_perm (sizeOf keys) keys le_rfl hU d f [] praw pre).trans ?_
    rw [codeOut_eq_spec (sizeOf keys) keys le_rfl hG d [] praw pre GoodDirPath_nil]
  exact ⟨write_root_file_valid d f keys praw pre, hperm,
    hperm.nodup_iff.2 (specCanvasList_nodup d keys praw pre hU hG)⟩

/-- Witness for C1: the amended statement applied to a concrete
one-canvas file. -/
theorem write_dispatch_set_amended_witness :
    write_root_file "out".toList "f.root".toList [("a".toList, RObj.tcanvas)] []
      (some RegularExpression.zero) =
      Except.ok (wrfOut "out".toList "f.root".toList [("a".toList, RObj.tcanvas)]
          [] RegularExpression.zero,
        (wrfOut "out".toList "f.root".toList [("a".toList, RObj.tcanvas)]
          [] RegularExpression.zero).length) ∧
    (wrfOut "out".toList "f.root".toList [("a".toList, RObj.tcanvas)] []
        RegularExpression.zero).Perm
      (specCanvasList "out".toList [("a".toList, RObj.tcanvas)] []
        RegularExpression.zero) ∧
    (wrfOut "out".toList "f.root".toList [("a".toList, RObj.tcanvas)] []
        RegularExpression.zero).Nodup := by
  refine write_dispatch_set_amended "out".toList "f.root".toList
    [("a".toList, RObj.tcanvas)] [] RegularExpression.zero ?_ ?_
  · refine UniqueNames.dir _ (by decide) ?_
    intro n o hm
    rcases List.mem_cons.1 hm with heq | hm2
    · cases heq
      exact UniqueNames.canvas
    · simp at hm2
  · refine GoodNames.dir _ ?_ ?_ ?_
    · intro n o hm
      rcases List.mem_cons.1 hm with heq | hm2
      · cases heq
        decide
      · simp at hm2
    · intro n o hm
      rcases List.mem_cons.1 hm with heq | hm2
      · cases heq
        decide
      · simp at hm2
    · intro n o hm
      rcases List.mem_cons.1 hm with heq | hm2
      · cases heq
        exact GoodNames.canvas
      · simp at hm2
